import Mathlib

/-!
# waechter: a shallow embedding of `main.go`

The development follows `src/main.go`.  Pure functions (`parseEvent`,
`validateTables`, `parseCommand`, `runCommands`, ...) are Lean functions.  The
goroutines started by `watcher.watch` (the notification loop, the executor and
the timer callbacks) are a state machine over one `State`, one atomic step per
channel operation.  Time is counted in milliseconds.

Everything supplied by the Go runtime or by a library (timers, channels,
`strings.EqualFold`, `os/exec`, the prepared SQL statements, the notification
provider) is either modelled on its documented behaviour or taken as a
parameter; each such place says so.
-/

namespace Waechter

set_option maxRecDepth 100000

/-! ## Data model (`main.go` 40-81) -/

/-- The quiet interval `cooldownTime = time.Millisecond * 100`, in milliseconds. -/
def cooldownTime : Nat := 100

/-- The Go type `eventKind`, an `iota` enumeration whose zero value is `chmod`. -/
inductive eventKind where
  | chmod
  | create
  | write
  | remove
  | rename
  deriving DecidableEq, Repr

/-- The Go struct `event`: a change on the filesystem. -/
structure event where
  path : String
  kind : eventKind
  deriving DecidableEq, Repr

/-- The Go struct `watcher`. It has exactly these three fields. -/
structure watcher where
  Path : String
  Commands : List String
  LogFile : String
  deriving DecidableEq, Repr

/-- The method `eventKind.String` (`main.go` 349-362). -/
def eventKind.String : eventKind → String
  | .create => "create"
  | .write => "write"
  | .rename => "rename"
  | .remove => "delete"
  | .chmod => "unknown"

/-! ## Raw notifications (`fsnotify.Event`) and `parseEvent` (`main.go` 364-378) -/

/-- The op flags of fsnotify: a bit mask. -/
abbrev Op := Nat

/-- The flag `fsnotify.Create`. -/
def Op.Create : Op := 1
/-- The flag `fsnotify.Write`. -/
def Op.Write : Op := 2
/-- The flag `fsnotify.Remove`. -/
def Op.Remove : Op := 4
/-- The flag `fsnotify.Rename`. -/
def Op.Rename : Op := 8
/-- The flag `fsnotify.Chmod`. -/
def Op.Chmod : Op := 16

/-- The method `Op.Has` of fsnotify: `o&h == h`. -/
def Op.Has (o h : Op) : Bool := (o &&& h) == h

/-- The struct `fsnotify.Event`: a path and its op flags. -/
structure FsEvent where
  Name : String
  Op : Op
  deriving DecidableEq, Repr

/-- The function `parseEvent`. The kind starts at the zero value `chmod` and is
overwritten by the first matching branch. -/
def parseEvent (fe : FsEvent) : event :=
  let e : event := { path := fe.Name, kind := eventKind.chmod }
  if Op.Has fe.Op Op.Write then { e with kind := eventKind.write }
  else if Op.Has fe.Op Op.Create then { e with kind := eventKind.create }
  else if Op.Has fe.Op Op.Remove then { e with kind := eventKind.remove }
  else if Op.Has fe.Op Op.Rename then { e with kind := eventKind.rename }
  else e

/-! ## `validateTables` (`main.go` 314-325) -/

/-- The loop body of `validateTables`, on the pair `(ok1, ok2)`. -/
def validateTablesStep (EqualFold : String → String → Bool) (name1 name2 : String)
    (acc : Bool × Bool) (s : String) : Bool × Bool :=
  let ok1 := if !acc.1 && EqualFold s name1 then true else acc.1
  let ok2 := if !acc.2 && EqualFold s name2 then true else acc.2
  (ok1, ok2)

/-- The function `validateTables`. `strings.EqualFold` is a library function and
is taken as the parameter `EqualFold`. -/
def validateTables (EqualFold : String → String → Bool) (a : List String)
    (name1 name2 : String) : Bool × Bool :=
  a.foldl (validateTablesStep EqualFold name1 name2) (false, false)

/-! ## Commands: `parseCommand` and `runCommands` (`main.go` 180-224) -/

/-- The pieces of `strings.Split` on a separator character, on character lists.
A text without the separator is one piece, so the result is never empty. -/
def splitChars (sep : Char) : List Char → List (List Char)
  | [] => [[]]
  | c :: cs =>
    if c = sep then [] :: splitChars sep cs
    else
      match splitChars sep cs with
      | [] => [[c]]
      | h :: t => (c :: h) :: t

/-- The call `strings.Split(s, " ")`. -/
def Split (s : String) : List String :=
  (splitChars ' ' s.toList).map String.mk

/-- The call `strings.Join(xs, sep)`. -/
def Join : List String → String → String
  | [], _ => ""
  | [a], _ => a
  | a :: b :: rest, sep => a ++ sep ++ Join (b :: rest) sep

/-- The fields of `exec.Cmd` that `runCommands` depends on. `Err` says that
`exec.Command` recorded a lookup error. -/
structure Cmd where
  Path : String
  Args : List String
  Err : Bool
  deriving DecidableEq, Repr

/-- The part of the operating system that `exec.Command` consults.
`isBase name` stands for `filepath.Base(name) == name`, and `LookPath name` gives
the path found and whether an error came with it. -/
structure ExecLib where
  isBase : String → Bool
  LookPath : String → String × Bool

/-- The library function `exec.Command` (and so `exec.CommandContext`, which
only attaches the context). -/
def Command (lib : ExecLib) (name : String) (arg : List String) : Cmd :=
  let cmd : Cmd := { Path := name, Args := name :: arg, Err := false }
  if lib.isBase name then
    let lp := lib.LookPath name
    let cmd := if lp.1 ≠ "" then { cmd with Path := lp.1 } else cmd
    if lp.2 then { cmd with Err := true } else cmd
  else cmd

/-- The method `Cmd.String`: the arguments joined by blanks when the lookup
failed, and the resolved path followed by the remaining arguments otherwise. -/
def Cmd.String (c : Cmd) : String :=
  if c.Err then Join c.Args " "
  else c.Args.tail.foldl (fun b a => b ++ " " ++ a) c.Path

/-- The function `parseCommand`: `cc[0]` is the program and `cc[1:]` its
arguments. -/
def parseCommand (lib : ExecLib) (cmdline : String) : Cmd :=
  let cc := Split cmdline
  Command lib (cc.headD "") cc.tail

/-- The prepared statement `commandsStmt`: `Exec i text` is true when the
`Exec` call made for the `i`-th command of the sequence returns an error. -/
abbrev CommandsStmt := Nat → String → Bool

/-- What the surroundings answer during one run of a command sequence:
`CombinedOutput i c` is the output of the `i`-th command and whether it came
with an error, `Write i out` is true when writing to the log sink fails. -/
structure RunEnv where
  lib : ExecLib
  CombinedOutput : Nat → Cmd → String × Bool
  Write : Nat → String → Bool

/-- The observable actions of `runCommands`, in the order they happen. -/
inductive Effect where
  | record (text : String) (failed : Bool)
  | exec (c : Cmd)
  | write (out : String)
  | logPrintf
  deriving DecidableEq, Repr

/-- The outcome of `runCommands`: what it did, and whether it panicked. -/
structure RunResult where
  trace : List Effect
  panicked : Bool
  deriving DecidableEq, Repr

/-- The call `commandsStmt.Exec(c.String(), ...)` fails for the `i`-th command. -/
def recordFails (commandsStmt : Option CommandsStmt) (i : Nat) (c : Cmd) : Bool :=
  match commandsStmt with
  | none => false
  | some Exec => Exec i c.String

/-- The effects of the guarded `Exec` call when it succeeds. -/
def recordEffects (commandsStmt : Option CommandsStmt) (c : Cmd) : List Effect :=
  match commandsStmt with
  | none => []
  | some _ => [Effect.record c.String false]

/-- The effects of executing a command and writing its output. -/
def execEffects (env : RunEnv) (i : Nat) (c : Cmd) : List Effect :=
  let out := (env.CombinedOutput i c).1
  [Effect.exec c, Effect.write out] ++ (if env.Write i out then [Effect.logPrintf] else [])

/-- The loop of `runCommands` from the `i`-th command on. -/
def runCommandsFrom (env : RunEnv) (commandsStmt : Option CommandsStmt) :
    Nat → List String → RunResult
  | _, [] => { trace := [], panicked := false }
  | i, command :: rest =>
    let c := parseCommand env.lib command
    if recordFails commandsStmt i c then
      { trace := [Effect.record c.String true], panicked := true }
    else
      let head := recordEffects commandsStmt c ++ execEffects env i c
      if (env.CombinedOutput i c).2 then { trace := head, panicked := false }
      else
        let r := runCommandsFrom env commandsStmt (i + 1) rest
        { trace := head ++ r.trace, panicked := r.panicked }

/-- The function `runCommands`. -/
def runCommands (env : RunEnv) (cmds : List String) (commandsStmt : Option CommandsStmt) :
    RunResult :=
  runCommandsFrom env commandsStmt 0 cmds

/-- Concatenation of texts, in order. -/
def concatAll : List String → String
  | [] => ""
  | a :: rest => a ++ concatAll rest

/-- The bytes handed to the log sink, in order. -/
def written (tr : List Effect) : String :=
  concatAll (tr.filterMap fun
    | Effect.write out => some out
    | _ => none)

/-- The commands executed, in order. -/
def executed (tr : List Effect) : List Cmd :=
  tr.filterMap fun
    | Effect.exec c => some c
    | _ => none

/-- The texts given to the command logger, in order. -/
def recorded (tr : List Effect) : List String :=
  tr.filterMap fun
    | Effect.record text _ => some text
    | _ => none

/-- The effects of one command that is recorded and executed. -/
def block (env : RunEnv) (commandsStmt : Option CommandsStmt) (x : Nat × String) : List Effect :=
  recordEffects commandsStmt (parseCommand env.lib x.2) ++
    execEffects env x.1 (parseCommand env.lib x.2)

/-- The `i`-th command ends the sequence: its record call or its execution fails. -/
def stops (env : RunEnv) (commandsStmt : Option CommandsStmt) (x : Nat × String) : Bool :=
  recordFails commandsStmt x.1 (parseCommand env.lib x.2) ||
    (env.CombinedOutput x.1 (parseCommand env.lib x.2)).2

/-- The execution of the `i`-th command fails. -/
def execFails (env : RunEnv) (x : Nat × String) : Bool :=
  (env.CombinedOutput x.1 (parseCommand env.lib x.2)).2

/-! ## Timers and the registry `timers` (`main.go` 114-116, 147-158)

`time.AfterFunc(d, f)` arms a timer that calls `f` once, `d` after the call;
`Stop` disarms it; `Reset(d)` arms it to expire `d` after the call of `Reset`.
The callback of every timer of the registry is `func() { run(e) }`, so a timer
is the event `e` captured when it was created together with its deadline. -/

/-- A timer created by `time.AfterFunc(cooldownTime, func() { run(e) })`. -/
structure Timer where
  e : event
  deadline : Option Nat
  deriving DecidableEq, Repr

/-- The call `time.AfterFunc(d, func() { run(e) })` at instant `now`. -/
def AfterFunc (now d : Nat) (e : event) : Timer :=
  { e := e, deadline := some (now + d) }

/-- The method `Timer.Stop`. -/
def Timer.Stop (t : Timer) : Timer :=
  { t with deadline := none }

/-- The method `Timer.Reset(d)` at instant `now`. -/
def Timer.Reset (t : Timer) (now d : Nat) : Timer :=
  { t with deadline := some (now + d) }

/-- The timer is armed and its deadline has come. -/
def Timer.due (t : Timer) (now : Nat) : Bool :=
  match t.deadline with
  | some d => decide (d ≤ now)
  | none => false

/-- The Go map `timers`, from path to timer. -/
abbrev Timers := List (String × Timer)

/-- The lookup `timers[path]`, with its `ok` result as the option. -/
def timersGet : Timers → String → Option Timer
  | [], _ => none
  | (k, t) :: rest, path => if k = path then some t else timersGet rest path

/-- The assignment `timers[path] = t`. -/
def timersSet : Timers → String → Timer → Timers
  | [], path, t => [(path, t)]
  | (k, t0) :: rest, path, t =>
    if k = path then (path, t) :: rest else (k, t0) :: timersSet rest path t

/-- The call `delete(timers, path)`. -/
def timersDelete : Timers → String → Timers
  | [], _ => []
  | (k, t) :: rest, path =>
    if k = path then timersDelete rest path else (k, t) :: timersDelete rest path

/-! ## The state of one watch target (`main.go` 84-178) -/

/-- The buffered channel `runCh`: the number of requests it holds and whether it
has been closed. -/
structure Chan where
  buf : Nat
  closed : Bool
  deriving DecidableEq, Repr

/-- The capacity given in `make(chan struct{}, 1)`. -/
def runChCap : Nat := 1

/-- Where the notification loop of `watch` stands: in its loop, before the first
or the second `<-runCh` of the stop case, before its `return`, or returned. -/
inductive HandlerPc where
  | looping
  | firstRecv
  | secondRecv
  | closing
  | returned
  deriving DecidableEq, Repr

/-- Where the goroutine `execute` stands: at the receive of `for range ch`,
inside `runAndLogCommands`, or past the loop. -/
inductive ExecPc where
  | waiting
  | running
  | exited
  deriving DecidableEq, Repr

/-- The start and the end of one execution of the command sequence. -/
inductive Mark where
  | start
  | finish
  deriving DecidableEq, Repr

/-- The case taken by the `select` of `run`. -/
inductive SelectCase where
  | recvExit
  | sendRun
  | dflt
  deriving DecidableEq, Repr

/-- The prepared statement `changesStmt`: `Exec n path kind` is true when the
`Exec` call made after `n` recorded changes returns an error. -/
abbrev ChangesStmt := Nat → String → String → Bool

/-- A watch target as `watch` receives it: the watcher and the two statements
(`none` for a nil statement). The index of `commandsStmt` counts the records made
since the target started. -/
structure Target where
  w : watcher
  changesStmt : Option ChangesStmt
  commandsStmt : Option CommandsStmt

/-- The state shared by the goroutines of one watch target. `fired`, `changes`,
`selects`, `windows`, `cmdLog` and `sink` record what has happened; the other
fields are the variables of `watch`. -/
structure State where
  now : Nat
  timers : Timers
  runCh : Chan
  exitCh : Bool
  ch : Bool
  ctx : Bool
  fw : Bool
  hpc : HandlerPc
  xpc : ExecPc
  fired : List (Nat × event)
  changes : List (String × String)
  selects : List SelectCase
  windows : List Mark
  cmdLog : List String
  sink : String
  panicked : Bool
  deriving DecidableEq, Repr

/-- The state right after `watch` has started its goroutines. -/
def start : State :=
  { now := 0, timers := [], runCh := { buf := 0, closed := false }, exitCh := false,
    ch := false, ctx := false, fw := false, hpc := HandlerPc.looping, xpc := ExecPc.waiting,
    fired := [], changes := [], selects := [], windows := [], cmdLog := [], sink := "",
    panicked := false }

/-- The function `logEvent`: nothing without a statement; a panic when `Exec`
returns an error. -/
def logEvent (changesStmt : Option ChangesStmt) (e : event) (st : State) : State :=
  match changesStmt with
  | none => st
  | some Exec =>
    if Exec st.changes.length e.path e.kind.String then { st with panicked := true }
    else { st with changes := st.changes ++ [(e.path, e.kind.String)] }

/-- The statement `close(runCh)`; closing a closed channel panics. -/
def closeRunCh (st : State) : State :=
  if st.runCh.closed then { st with panicked := true }
  else { st with runCh := { st.runCh with closed := true } }

/-- A send on `runCh` that has been selected; sending on a closed channel panics. -/
def sendRunCh (st : State) : State :=
  if st.runCh.closed then { st with panicked := true }
  else { st with runCh := { st.runCh with buf := st.runCh.buf + 1 } }

/-- The send case of the `select` can proceed: there is room in the buffer, or
the channel is closed (and the send panics). -/
def sendReady (st : State) : Bool :=
  st.runCh.closed || decide (st.runCh.buf < runChCap)

/-- The `select` of `run` (`main.go` 123-128). The receive on `exitCh` can
proceed once `exitCh` is closed. When both cases can proceed Go takes either;
`pick` says whether it takes the receive. With no case ready the `default` is
taken, so the statement never blocks. -/
def selectRun (pick : Bool) (st : State) : State :=
  if st.exitCh && (pick || !sendReady st) then
    closeRunCh { st with selects := st.selects ++ [SelectCase.recvExit] }
  else if sendReady st then
    sendRunCh { st with selects := st.selects ++ [SelectCase.sendRun] }
  else { st with selects := st.selects ++ [SelectCase.dflt] }

/-- The closure `run` (`main.go` 118-129), called with the event `e`, taken as one
step: `logEvent` returns at once, so the record, the `delete` and the `select`
all happen at the instant of the call. This is the view of the interleavings
below, where only the order of the channel operations matters. Where the time
that `logEvent` takes matters, as for the entry that stays in `timers` while it
waits, the call is split into `runBegin` and `runEnd`. The call is noted in
`fired` with its instant. -/
def run(changesStmt : Option ChangesStmt) (pick : Bool) (e : event) (st : State) : State :=
  let st1 := logEvent changesStmt e { st with fired := st.fired ++ [(st.now, e)] }
  if st1.panicked then st1
  else selectRun pick { st1 with timers := timersDelete st1.timers e.path }

/-- The body of `case ev := <-fw.Events` (`main.go` 136-158) at instant
`st.now`. Registering a created directory with the provider changes nothing in
this state. -/
def handleEvent (fe : FsEvent) (st : State) : State :=
  let e := parseEvent fe
  if e.kind = eventKind.chmod then st
  else
    match timersGet st.timers e.path with
    | some t =>
      { st with timers := timersSet st.timers e.path (t.Reset st.now cooldownTime) }
    | none =>
      let t := (AfterFunc st.now cooldownTime e).Stop
      let m := timersSet st.timers e.path t
      { st with timers := timersSet m e.path (t.Reset st.now cooldownTime) }

/-- The timer registered for `path` expires: it is no longer armed and its
callback `run(e)` is called. Nothing happens when it is not due. -/
def fireTimer (cfg : Target) (pick : Bool) (path : String) (st : State) : State :=
  if st.panicked then st
  else
    match timersGet st.timers path with
    | some t =>
      if t.due st.now then
        run cfg.changesStmt pick t.e { st with timers := timersSet st.timers path t.Stop }
      else st
    | none => st

/-- The function `runAndLogCommands`: it picks the log sink (the file
`logTarget`, or standard output) and runs the commands; the choice of the sink
does not change what `runCommands` does. -/
def runAndLogCommands (env : RunEnv) (cmds : List String)
    (commandsStmt : Option CommandsStmt) (_logTarget : String) : RunResult :=
  runCommands env cmds commandsStmt

/-! ## Punctual time: every timer fires at its deadline -/

/-- Every due timer of the registry fires, in the order of the registry. -/
def fireDue (cfg : Target) (pick : Bool) (st : State) : State :=
  (st.timers.map Prod.fst).foldl (fun s path => fireTimer cfg pick path s) st

/-- One millisecond passes, and every timer that is due then fires. -/
def tick (cfg : Target) (pick : Bool) (st : State) : State :=
  fireDue cfg pick { st with now := st.now + 1 }

/-- The given number of milliseconds pass. -/
def advance (cfg : Target) (pick : Bool) : Nat → State → State
  | 0, st => st
  | n + 1, st => advance cfg pick n (tick cfg pick st)

/-- Time passes until the instant `t`. -/
def advanceTo (cfg : Target) (pick : Bool) (t : Nat) (st : State) : State :=
  advance cfg pick (t - st.now) st

/-- The notification `x.2` arrives at instant `x.1` and the loop handles it. -/
def deliver (cfg : Target) (pick : Bool) (st : State) (x : Nat × FsEvent) : State :=
  let s := advanceTo cfg pick x.1 st
  if s.panicked || s.hpc != HandlerPc.looping then s else handleEvent x.2 s

/-- The notifications arrive at their instants, then time passes until `tEnd`. -/
def simulate (cfg : Target) (pick : Bool) (st : State) (evs : List (Nat × FsEvent))
    (tEnd : Nat) : State :=
  advanceTo cfg pick tEnd (evs.foldl (deliver cfg pick) st)

/-! ## Calls of `run` that take time (`main.go` 118-129)

`run` first calls `logEvent`, which waits for `changesStmt.Exec`, and only then
deletes the path from `timers` and does its `select`. As long as `logEvent` has
not returned, the entry of the expired timer is still in `timers`, so the loop
finds it and calls `Reset` on it: the expired timer is armed again and will call
`run` with the event it was created for. A timer that is armed when its entry is
deleted stays armed, without an entry. -/

/-- A watch target in which calls of `run` take time: the shared state, the
timers that are armed but have no entry in `timers` any more, and the calls of
`run` whose `logEvent` has not returned yet, each with the instant at which it
returns and with its argument. -/
structure Timed where
  st : State
  orphans : List Timer
  inflight : List (Nat × event)
  deriving DecidableEq, Repr

/-- The timed state right after `watch` has started its goroutines. -/
def timedStart : Timed :=
  { st := start, orphans := [], inflight := [] }

/-- A timer calls `run(e)` (`main.go` 118-119): the call is noted in `fired`, and
its `logEvent` returns `lat k` milliseconds later, `k` being the number of calls
of `run` made before. -/
def runBegin (lat : Nat → Nat) (e : event) (s : Timed) : Timed :=
  { s with
    st := { s.st with fired := s.st.fired ++ [(s.st.now, e)] }
    inflight := s.inflight ++ [(s.st.now + lat s.st.fired.length, e)] }

/-- The timers that `delete(timers, path)` leaves armed without an entry. -/
def orphaned (m : Timers) (path : String) : List Timer :=
  match timersGet m path with
  | some t =>
    match t.deadline with
    | some _ => [t]
    | none => []
  | none => []

/-- The `logEvent` of a call `run(e)` returns (`main.go` 119-128): the change is
recorded, or the process panics; then the path is deleted from `timers` and the
`select` is done. -/
def runEnd (changesStmt : Option ChangesStmt) (pick : Bool) (e : event) (s : Timed) : Timed :=
  let st1 := logEvent changesStmt e s.st
  if st1.panicked then { s with st := st1 }
  else
    { s with
      st := selectRun pick { st1 with timers := timersDelete st1.timers e.path }
      orphans := s.orphans ++ orphaned st1.timers e.path }

/-- The timer registered for `path` expires, if it is due: it is no longer armed,
its entry stays in `timers`, and its callback begins. -/
def expireEntry (lat : Nat → Nat) (path : String) (s : Timed) : Timed :=
  if s.st.panicked then s
  else
    match timersGet s.st.timers path with
    | some t =>
      if t.due s.st.now then
        runBegin lat t.e { s with st := { s.st with timers := timersSet s.st.timers path t.Stop } }
      else s
    | none => s

/-- Every due timer of the registry expires, in the order of the registry. -/
def expireEntries (lat : Nat → Nat) (s : Timed) : Timed :=
  (s.st.timers.map Prod.fst).foldl (fun s1 path => expireEntry lat path s1) s

/-- Every due timer without an entry expires: its callback begins. -/
def expireOrphans (lat : Nat → Nat) (s : Timed) : Timed :=
  if s.st.panicked then s
  else
    (s.orphans.filter fun t => t.due s.st.now).foldl (fun s1 t => runBegin lat t.e s1)
      { s with orphans := s.orphans.filter fun t => !t.due s.st.now }

/-- Every call of `run` whose `logEvent` returns by now goes on to its end, in
the order in which the calls began. -/
def finishRuns (changesStmt : Option ChangesStmt) (pick : Bool) (s : Timed) : Timed :=
  (s.inflight.filter fun x => decide (x.1 ≤ s.st.now)).foldl
    (fun s1 x => if s1.st.panicked then s1 else runEnd changesStmt pick x.2 s1)
    { s with inflight := s.inflight.filter fun x => !decide (x.1 ≤ s.st.now) }

/-- One millisecond passes: the due timers expire and their callbacks begin,
then the calls of `run` whose `logEvent` has returned go on to their end. -/
def timedTick (cfg : Target) (lat : Nat → Nat) (pick : Bool) (s : Timed) : Timed :=
  finishRuns cfg.changesStmt pick
    (expireOrphans lat (expireEntries lat { s with st := { s.st with now := s.st.now + 1 } }))

/-- The given number of milliseconds pass. -/
def timedAdvance (cfg : Target) (lat : Nat → Nat) (pick : Bool) : Nat → Timed → Timed
  | 0, s => s
  | n + 1, s => timedAdvance cfg lat pick n (timedTick cfg lat pick s)

/-- Time passes until the instant `t`. -/
def timedAdvanceTo (cfg : Target) (lat : Nat → Nat) (pick : Bool) (t : Nat) (s : Timed) :
    Timed :=
  timedAdvance cfg lat pick (t - s.st.now) s

/-- The notification `x.2` arrives at instant `x.1` and the loop handles it. -/
def timedDeliver (cfg : Target) (lat : Nat → Nat) (pick : Bool) (s : Timed)
    (x : Nat × FsEvent) : Timed :=
  let s1 := timedAdvanceTo cfg lat pick x.1 s
  if s1.st.panicked || s1.st.hpc != HandlerPc.looping then s1
  else { s1 with st := handleEvent x.2 s1.st }

/-- The notifications arrive at their instants, then time passes until `tEnd`. -/
def timedSimulate (cfg : Target) (lat : Nat → Nat) (pick : Bool) (s : Timed)
    (evs : List (Nat × FsEvent)) (tEnd : Nat) : Timed :=
  timedAdvanceTo cfg lat pick tEnd (evs.foldl (timedDeliver cfg lat pick) s)

/-! ## Interleavings: one atomic step per channel operation -/

/-- The steps of the goroutines of a watch target and of its surroundings. -/
inductive Action where
  | notify (fe : FsEvent)
  | tick
  | fire (path : String) (pick : Bool)
  | stopSignal
  | hStop
  | hRecv
  | hReturn
  | xRecv
  | xFinish (env : RunEnv)

/-- The step is a notification of the provider. -/
def Action.isNotify : Action → Bool
  | Action.notify _ => true
  | _ => false

/-- A receive on `runCh`: a request is taken when there is one; on an empty
closed channel the receive returns at once; otherwise it blocks (`none`). -/
def recvRunCh (c : Chan) : Option Chan :=
  if 0 < c.buf then some { c with buf := c.buf - 1 }
  else if c.closed then some c
  else none

/-- One step; `none` when the step cannot be taken in this state (the goroutine
is elsewhere, or blocked).

* `notify`: the loop takes `case ev := <-fw.Events`.
* `tick`: a millisecond passes (a timer fires at its deadline or later).
* `fire`: a due timer expires and `run` is called.
* `stopSignal`: the owner closes `ch`.
* `hStop`: the loop takes `case <-ch` and does `cancel(); close(exitCh)`.
* `hRecv`: one of the two `<-runCh` of the stop case.
* `hReturn`: `return`, with the deferred `fw.Close()`.
* `xRecv`: the receive of `for range ch` in `execute`.
* `xFinish`: `runAndLogCommands` returns. -/
def step (cfg : Target) (st : State) : Action → Option State
  | Action.notify fe =>
    if st.panicked then none
    else if st.hpc = HandlerPc.looping then some (handleEvent fe st) else none
  | Action.tick =>
    if st.panicked then none else some { st with now := st.now + 1 }
  | Action.fire path pick =>
    if st.panicked then none
    else
      match timersGet st.timers path with
      | some t => if t.due st.now then some (fireTimer cfg pick path st) else none
      | none => none
  | Action.stopSignal =>
    if st.panicked then none
    else if st.ch then none else some { st with ch := true }
  | Action.hStop =>
    if st.panicked then none
    else if st.hpc = HandlerPc.looping && st.ch then
      some { st with ctx := true, exitCh := true, hpc := HandlerPc.firstRecv }
    else none
  | Action.hRecv =>
    if st.panicked then none
    else if st.hpc = HandlerPc.firstRecv then
      (recvRunCh st.runCh).map fun c => { st with runCh := c, hpc := HandlerPc.secondRecv }
    else if st.hpc = HandlerPc.secondRecv then
      (recvRunCh st.runCh).map fun c => { st with runCh := c, hpc := HandlerPc.closing }
    else none
  | Action.hReturn =>
    if st.panicked then none
    else if st.hpc = HandlerPc.closing then
      some { st with fw := true, hpc := HandlerPc.returned }
    else none
  | Action.xRecv =>
    if st.panicked then none
    else if st.xpc = ExecPc.waiting then
      if 0 < st.runCh.buf then
        some { st with runCh := { st.runCh with buf := st.runCh.buf - 1 },
                       xpc := ExecPc.running, windows := st.windows ++ [Mark.start] }
      else if st.runCh.closed then some { st with xpc := ExecPc.exited }
      else none
    else none
  | Action.xFinish env =>
    if st.panicked then none
    else if st.xpc = ExecPc.running then
      let r := runAndLogCommands env cfg.w.Commands
        (cfg.commandsStmt.map fun Exec i text => Exec (st.cmdLog.length + i) text)
        cfg.w.LogFile
      let st1 := { st with
        cmdLog := st.cmdLog ++ (r.trace.filterMap fun
          | Effect.record text false => some text
          | _ => none),
        sink := st.sink ++ written r.trace }
      if r.panicked then some { st1 with panicked := true }
      else some { st1 with xpc := ExecPc.waiting, windows := st1.windows ++ [Mark.finish] }
    else none

/-- The steps of a schedule, one after the other; `none` when one of them cannot
be taken. -/
def execActs (cfg : Target) : State → List Action → Option State
  | st, [] => some st
  | st, a :: rest =>
    match step cfg st a with
    | some st1 => execActs cfg st1 rest
    | none => none

/-! ## The outcome of `runCommands`, position by position -/

/-- What the command that ends the sequence contributes: only the failed record
call when the command logger fails, its whole block otherwise. -/
def lastPart (env : RunEnv) (commandsStmt : Option CommandsStmt) :
    Option (Nat × String) → List Effect
  | none => []
  | some x =>
    if recordFails commandsStmt x.1 (parseCommand env.lib x.2) then
      [Effect.record (parseCommand env.lib x.2).String true]
    else block env commandsStmt x

/-- The sequence ends in a panic: the record call of its last command fails. -/
def panicsAt (env : RunEnv) (commandsStmt : Option CommandsStmt) :
    Option (Nat × String) → Bool
  | none => false
  | some x => recordFails commandsStmt x.1 (parseCommand env.lib x.2)

/-- The position of the first command whose record call or execution fails
(the number of commands when there is none). -/
def stopIndex (env : RunEnv) (commandsStmt : Option CommandsStmt) (cmds : List String) : Nat :=
  cmds.enum.findIdx (stops env commandsStmt)

/-- The position of the first command whose execution fails (the number of
commands when there is none). -/
def firstFailure (env : RunEnv) (cmds : List String) : Nat :=
  cmds.enum.findIdx (execFails env)

/-- The command logger returns an error for the command at this position: the
answer of `Exec` to the text of the parsed command. -/
def loggerRejects (env : RunEnv) (Exec : CommandsStmt) (x : Nat × String) : Bool :=
  Exec x.1 (parseCommand env.lib x.2).String

/-- With a command logger, what a command contributes that is recorded and
executed: the record call, then the execution, then the write of its output (and
a log line when the write fails). -/
def loggedBlock (env : RunEnv) (x : Nat × String) : List Effect :=
  [Effect.record (parseCommand env.lib x.2).String false,
    Effect.exec (parseCommand env.lib x.2),
    Effect.write (env.CombinedOutput x.1 (parseCommand env.lib x.2)).1] ++
  (if env.Write x.1 (env.CombinedOutput x.1 (parseCommand env.lib x.2)).1
    then [Effect.logPrintf] else [])

/-- With a command logger, the position of the first command that the logger
rejects or whose execution fails (the number of commands when there is none). -/
def loggedStopIndex (env : RunEnv) (Exec : CommandsStmt) (cmds : List String) : Nat :=
  cmds.enum.findIdx fun x => loggerRejects env Exec x || execFails env x

/-- With a command logger, what the command at the stop position contributes:
only the rejected record call when the logger rejects it, its whole block
otherwise. -/
def loggedLast (env : RunEnv) (Exec : CommandsStmt) : Option (Nat × String) → List Effect
  | none => []
  | some x =>
    if loggerRejects env Exec x then [Effect.record (parseCommand env.lib x.2).String true]
    else loggedBlock env x

/-- The logger rejects the command at the stop position. -/
def loggedPanics (env : RunEnv) (Exec : CommandsStmt) : Option (Nat × String) → Bool
  | none => false
  | some x => loggerRejects env Exec x

/-! ## What a run of the watch target has recorded -/

/-- The executions of the command sequence follow one another: `flag` says
whether one is under way, a start needs none under way, a finish needs one. -/
def alternates : Bool → List Mark → Bool
  | _, [] => true
  | false, Mark.start :: rest => alternates true rest
  | true, Mark.finish :: rest => alternates false rest
  | _, _ => false

/-- The number of executions under way after the marks `ms`, as an integer:
starts minus finishes. -/
def underWay (ms : List Mark) : Int :=
  (ms.count Mark.start : Int) - (ms.count Mark.finish : Int)

/-- Whether an execution is under way after the marks, starting from `flag`;
`none` when the marks do not follow one another as start, finish, start, ... -/
def windowsEnd : Bool → List Mark → Option Bool
  | flag, [] => some flag
  | false, Mark.start :: rest => windowsEnd true rest
  | true, Mark.finish :: rest => windowsEnd false rest
  | _, _ => none

/-- Calls of `run`, one after the other, in a process that stops at a panic. -/
def runAll (cfg : Target) (fs : List (event × Bool)) (st : State) : State :=
  fs.foldl (fun s f => if s.panicked then s else run cfg.changesStmt f.2 f.1 s) st

/-- The calls of `run` made so far for the path, with their instants. -/
def firedFor (path : String) (st : State) : List (Nat × event) :=
  st.fired.filter fun x => decide (x.2.path = path)

/-- The notifications continue a burst on `path` whose latest event came at
instant `t`: each is a change of `path` that is not an attribute change and
arrives less than the quiet interval after the one before. -/
def burstFrom (path : String) : Nat → List (Nat × FsEvent) → Bool
  | _, [] => true
  | t, x :: rest =>
    decide (x.2.Name = path) && decide ((parseEvent x.2).kind ≠ eventKind.chmod) &&
      decide (t ≤ x.1) && decide (x.1 < t + cooldownTime) && burstFrom path x.1 rest

/-- The instant of the last notification of a burst whose first came at `t`. -/
def lastTime : Nat → List (Nat × FsEvent) → Nat
  | t, [] => t
  | _, x :: rest => lastTime x.1 rest

/-! ## Invariants of the watch target -/

/-- What holds in every state a watch target can reach: the slot holds at most
`runChCap` requests, `exitCh` is closed only after the stop signal, `runCh` is
closed only after `exitCh`, and the executions recorded follow one another, the
last one being under way exactly when the executor is inside
`runAndLogCommands`. -/
def Inv (st : State) : Prop :=
  st.runCh.buf ≤ runChCap ∧ (st.exitCh = true → st.ch = true) ∧
    (st.runCh.closed = true → st.exitCh = true) ∧
    windowsEnd false st.windows = some (decide (st.xpc = ExecPc.running))

/-- A state from which a stop cannot complete unless a change event fires: no
timer is registered, `runCh` is open, the provider is open, the executor has not
left its loop, and the loop of `watch` is either in its loop or at its first
receive with at most one request in the slot, or at its second receive with an
empty slot. -/
def Stuck (st : State) : Prop :=
  st.timers = [] ∧ st.runCh.closed = false ∧ st.fw = false ∧ st.xpc ≠ ExecPc.exited ∧
    (((st.hpc = HandlerPc.looping ∨ st.hpc = HandlerPc.firstRecv) ∧ st.runCh.buf ≤ 1) ∨
      (st.hpc = HandlerPc.secondRecv ∧ st.runCh.buf = 0))

/-- The registry is well formed: the timer registered for a path carries an
event of that path (`timers[e.path] = t` with `t` calling `run(e)`). -/
def WF (m : Timers) : Prop :=
  ∀ x ∈ m, x.2.e.path = x.1

/-- The watch target is operating: the process has not panicked, the loop of
`watch` is looping, neither `exitCh` nor `runCh` is closed, and the registry is
well formed. -/
def Operating (st : State) : Prop :=
  st.panicked = false ∧ st.hpc = HandlerPc.looping ∧ st.exitCh = false ∧
    st.runCh.closed = false ∧ WF st.timers

/-- The changes statement is nil or its `Exec` never returns an error. -/
def NeverFails (changesStmt : Option ChangesStmt) : Prop :=
  ∀ Exec, changesStmt = some Exec → ∀ n path kind, Exec n path kind = false

/-- No timer that is armed without an entry belongs to the path. -/
def noOrphan (path : String) (s : Timed) : Prop :=
  ∀ t ∈ s.orphans, t.e.path ≠ path

/-- No call of `run` that is still in `logEvent` is for the path. -/
def noFlight (path : String) (s : Timed) : Prop :=
  ∀ x ∈ s.inflight, x.2.path ≠ path

/-- Nothing is left of earlier events on the path: it has no entry in `timers`,
no timer of it is armed without an entry, and no call of `run` for it is still in
`logEvent`. -/
def Quiet (path : String) (s : Timed) : Prop :=
  timersGet s.st.timers path = none ∧ noOrphan path s ∧ noFlight path s

/-- The target is operating, the entry of the path in `timers` is `X`, nothing
else is left of the path, and `F` are the calls of `run` made for the path. -/
def Held (path : String) (X : Option Timer) (F : List (Nat × event)) (s : Timed) : Prop :=
  Operating s.st ∧ timersGet s.st.timers path = X ∧ noOrphan path s ∧ noFlight path s ∧
    firedFor path s.st = F

/-- The target is operating, no timer of the path is armed (in `timers` or
without an entry), and `F` are the calls of `run` made for the path. -/
def Settled (path : String) (F : List (Nat × event)) (s : Timed) : Prop :=
  Operating s.st ∧ (∀ t, timersGet s.st.timers path = some t → t.deadline = none) ∧
    noOrphan path s ∧ firedFor path s.st = F

/-- The notification is a change of `path` that is not an attribute change. -/
def isOn (path : String) (x : Nat × FsEvent) : Bool :=
  decide (x.2.Name = path) && decide ((parseEvent x.2).kind ≠ eventKind.chmod)

/-- The notifications come in the order of their instants, none before `t`. -/
def sortedFrom : Nat → List (Nat × FsEvent) → Bool
  | _, [] => true
  | t, x :: rest => decide (t ≤ x.1) && sortedFrom x.1 rest

/-! ## The path filter of the specification -/

/-- The text ends with the given ending. -/
def endsWith (text ending : String) : Bool :=
  text.toList.reverse.take ending.length == ending.toList.reverse

/-- The pattern `.*\.go$` of `TestWatcherIncludeExclude`: the path ends with
`.go`. -/
def matchesGo (path : String) : Bool :=
  endsWith path ".go"

/-- The pattern `.+_test\.go$` of `TestWatcherIncludeExclude`: the path ends
with `_test.go` and has a character before that ending. -/
def matchesTestGo (path : String) : Bool :=
  endsWith path "_test.go" && decide ("_test.go".length < path.length)

/-- The acceptance rule in the words of the specification (section 4.1): the
include set is empty or the path matches an include pattern, and the path
matches no exclude pattern. The `watcher` of `main.go` has no pattern sets and
`watch` has no counterpart of this rule. -/
def specAccepts (includeRe excludeRe : List (String → Bool)) (path : String) : Bool :=
  (includeRe.isEmpty || includeRe.any fun re => re path) &&
    !(excludeRe.any fun re => re path)

/-! ## Sample inputs, taken from the tests -/

/-- An instance of `EqualFold` for ASCII letters, used to evaluate examples. -/
def asciiEqualFold (s t : String) : Bool :=
  s.toList.map Char.toLower == t.toList.map Char.toLower

/-- A sample lookup: programs live in `/bin`, and `exit` is not a program. -/
def sampleLib : ExecLib :=
  { isBase := fun name => !name.toList.contains '/'
    LookPath := fun name => if name = "exit" then ("", true) else ("/bin/" ++ name, false) }

/-- A sample run: `echo` prints its arguments, nothing else prints, and a
command fails when its lookup failed. -/
def sampleEnv : RunEnv :=
  { lib := sampleLib
    CombinedOutput := fun _ c =>
      if c.Err then ("", true)
      else if c.Args.headD "" = "echo" then (Join c.Args.tail " " ++ "\n", false)
      else ("", false)
    Write := fun _ _ => false }

/-- A watch target of the tests: no commands, no statements. -/
def plainTarget : Target :=
  { w := { Path := "/w", Commands := [], LogFile := "" }, changesStmt := none,
    commandsStmt := none }

/-- A watch target whose changes statement accepts every record. -/
def loggingTarget : Target :=
  { w := { Path := "/w", Commands := [], LogFile := "" },
    changesStmt := some fun _ _ _ => false, commandsStmt := none }

/-- A watch target with one command and no statements. -/
def echoTarget : Target :=
  { w := { Path := "/w", Commands := ["echo done"], LogFile := "" }, changesStmt := none,
    commandsStmt := none }

/-- A schedule: a file is created, the quiet interval passes, the timer fires,
and the executor runs the command sequence once. -/
def sampleSchedule : List Action :=
  [Action.notify { Name := "/w/f", Op := Op.Create }] ++ List.replicate 100 Action.tick ++
    [Action.fire "/w/f" true, Action.xRecv, Action.xFinish sampleEnv]

/-- The state reached by `sampleSchedule`. -/
def sampleFinal : State :=
  { start with
    now := 100
    fired := [(100, { path := "/w/f", kind := eventKind.create })]
    selects := [SelectCase.sendRun]
    windows := [Mark.start, Mark.finish]
    sink := "done\n" }

/-- A schedule that leaves a request in the slot: a file is created, the quiet
interval passes and the timer fires, while the executor has not received yet. -/
def occupiedSchedule : List Action :=
  [Action.notify { Name := "/w/f", Op := Op.Create }] ++ List.replicate 100 Action.tick ++
    [Action.fire "/w/f" true]

/-- The state reached by `occupiedSchedule`. -/
def occupiedState : State :=
  { start with
    now := 100
    runCh := { buf := 1, closed := false }
    fired := [(100, { path := "/w/f", kind := eventKind.create })]
    selects := [SelectCase.sendRun] }

/-- A schedule without any change event: the stop signal, the stop case of the
loop, and time passing. -/
def stopSchedule : List Action :=
  [Action.stopSignal, Action.hStop, Action.tick, Action.tick]

/-- The state reached by `stopSchedule`: the loop waits at its first `<-runCh`. -/
def stopState : State :=
  { start with now := 2, ch := true, ctx := true, exitCh := true,
               hpc := HandlerPc.firstRecv }

/-- The three creations of `TestWatcherIncludeExclude`, each long after the one
before has settled. -/
def threeFiles : List (Nat × FsEvent) :=
  [(0, { Name := "/w/file.txt", Op := Op.Create }),
    (200, { Name := "/w/file.go", Op := Op.Create }),
    (400, { Name := "/w/file_test.go", Op := Op.Create })]

/-- A burst on one path: a creation, then a write 50 ms later. -/
def createThenWrite : List (Nat × FsEvent) :=
  [(0, { Name := "/w/f", Op := Op.Create }), (50, { Name := "/w/f", Op := Op.Write })]

/-- A schedule with two timers pending at the stop: two files are created, the
stop signal arrives and the loop takes its stop case, the quiet interval passes,
and the timer of the first file fires, its `select` taking the receive on
`exitCh`. -/
def pendingAtStopSchedule : List Action :=
  [Action.notify { Name := "/w/a", Op := Op.Create },
    Action.notify { Name := "/w/b", Op := Op.Create }, Action.stopSignal, Action.hStop] ++
    List.replicate 100 Action.tick ++ [Action.fire "/w/a" true]

/-- The state reached by `pendingAtStopSchedule`: `runCh` has been closed by the
first fire, and the timer of the second file is due. -/
def closedOnceState : State :=
  { start with
    now := 100
    timers := [("/w/b", { e := { path := "/w/b", kind := eventKind.create },
                          deadline := some 100 })]
    runCh := { buf := 0, closed := true }
    exitCh := true
    ch := true
    ctx := true
    hpc := HandlerPc.firstRecv
    fired := [(100, { path := "/w/a", kind := eventKind.create })]
    selects := [SelectCase.recvExit] }

/-- A command logger that returns an error for the second record and for no
other. -/
def rejectSecond : CommandsStmt :=
  fun i _ => i == 1

/-- A changes statement whose `Exec` takes 60 ms, every time. -/
def slowExec : Nat → Nat :=
  fun _ => 60

/-- Three events on one path: a creation, and a burst of two writes 130 and 170 ms
later. The burst begins after the timer of the creation has fired (at 100 ms) and
while `logEvent` of that call of `run` is still waiting (until 160 ms). -/
def raceEvents : List (Nat × FsEvent) :=
  [(0, { Name := "/w/f", Op := Op.Create }), (130, { Name := "/w/f", Op := Op.Write }),
    (170, { Name := "/w/f", Op := Op.Write })]

/-- The state after the creation at 0 ms: its timer is armed for 100 ms. -/
def raceAfterCreate : Timed :=
  { st := { start with
      timers := [("/w/f", { e := { path := "/w/f", kind := eventKind.create },
                            deadline := some 100 })] }
    orphans := []
    inflight := [] }

/-- The state after the write at 130 ms: the timer of the creation has fired at
100 ms, its `logEvent` returns at 160 ms, and the write has found the entry and
armed the expired timer again, for 230 ms. -/
def raceAfterFirstWrite : Timed :=
  { st := { start with
      now := 130
      timers := [("/w/f", { e := { path := "/w/f", kind := eventKind.create },
                            deadline := some 230 })]
      fired := [(100, { path := "/w/f", kind := eventKind.create })] }
    orphans := []
    inflight := [(160, { path := "/w/f", kind := eventKind.create })] }

/-- The state after the write at 170 ms: at 160 ms `run` has deleted the entry,
leaving the armed timer without an entry, so the write has created a second timer,
armed for 270 ms. -/
def raceAfterSecondWrite : Timed :=
  { st := { start with
      now := 170
      timers := [("/w/f", { e := { path := "/w/f", kind := eventKind.write },
                            deadline := some 270 })]
      runCh := { buf := 1, closed := false }
      fired := [(100, { path := "/w/f", kind := eventKind.create })]
      changes := [("/w/f", "create")]
      selects := [SelectCase.sendRun] }
    orphans := [{ e := { path := "/w/f", kind := eventKind.create }, deadline := some 230 }]
    inflight := [] }

/-- The state at 280 ms: both timers have fired, at 230 and at 270 ms. -/
def raceEnd : Timed :=
  { st := { start with
      now := 280
      timers := [("/w/f", { e := { path := "/w/f", kind := eventKind.write },
                            deadline := none })]
      runCh := { buf := 1, closed := false }
      fired := [(100, { path := "/w/f", kind := eventKind.create }),
        (230, { path := "/w/f", kind := eventKind.create }),
        (270, { path := "/w/f", kind := eventKind.write })]
      changes := [("/w/f", "create")]
      selects := [SelectCase.sendRun] }
    orphans := []
    inflight := [(290, { path := "/w/f", kind := eventKind.create }),
      (330, { path := "/w/f", kind := eventKind.write })] }

/-- The state after the write of `createThenWrite` at 50 ms: the write has found
the timer of the creation and armed it again, for 150 ms. -/
def burstAfterWrite : Timed :=
  { st := { start with
      now := 50
      timers := [("/w/f", { e := { path := "/w/f", kind := eventKind.create },
                            deadline := some 150 })] }
    orphans := []
    inflight := [] }

/-- The state 160 ms after the creation of `createThenWrite`: the timer has fired
once, at 150 ms, with the event of the creation, and `logEvent` of that call has
not returned yet. -/
def burstEnd : Timed :=
  { st := { start with
      now := 160
      timers := [("/w/f", { e := { path := "/w/f", kind := eventKind.create },
                            deadline := none })]
      fired := [(150, { path := "/w/f", kind := eventKind.create })] }
    orphans := []
    inflight := [(210, { path := "/w/f", kind := eventKind.create })] }

/-- A burst on `/w/f` (a creation, then a write 50 ms later) with a creation on
another path in between. -/
def mixedEvents : List (Nat × FsEvent) :=
  [(0, { Name := "/w/f", Op := Op.Create }), (20, { Name := "/w/g", Op := Op.Create }),
    (50, { Name := "/w/f", Op := Op.Write })]

/-- The three creations of `threeFiles`, state by state. After the first creation,
at 0 ms: its timer is armed for 100 ms. -/
def filesAfterFirst : Timed :=
  { st := { start with
      timers := [("/w/file.txt", { e := { path := "/w/file.txt", kind := eventKind.create },
                                   deadline := some 100 })] }
    orphans := []
    inflight := [] }

/-- At 130 ms: the timer of `file.txt` has fired at 100 ms and `logEvent` of that
call of `run` returns at 160 ms. -/
def filesFirstFired : Timed :=
  { st := { start with
      now := 130
      timers := [("/w/file.txt", { e := { path := "/w/file.txt", kind := eventKind.create },
                                   deadline := none })]
      fired := [(100, { path := "/w/file.txt", kind := eventKind.create })] }
    orphans := []
    inflight := [(160, { path := "/w/file.txt", kind := eventKind.create })] }

/-- After the second creation, at 200 ms: the change of `file.txt` has been
recorded and its entry deleted, and the timer of `file.go` is armed for 300 ms. -/
def filesAfterSecond : Timed :=
  { st := { start with
      now := 200
      timers := [("/w/file.go", { e := { path := "/w/file.go", kind := eventKind.create },
                                  deadline := some 300 })]
      runCh := { buf := 1, closed := false }
      fired := [(100, { path := "/w/file.txt", kind := eventKind.create })]
      changes := [("/w/file.txt", "create")]
      selects := [SelectCase.sendRun] }
    orphans := []
    inflight := [] }

/-- At 330 ms: the timer of `file.go` has fired at 300 ms and `logEvent` of that
call of `run` returns at 360 ms. -/
def filesSecondFired : Timed :=
  { st := { start with
      now := 330
      timers := [("/w/file.go", { e := { path := "/w/file.go", kind := eventKind.create },
                                  deadline := none })]
      runCh := { buf := 1, closed := false }
      fired := [(100, { path := "/w/file.txt", kind := eventKind.create }),
        (300, { path := "/w/file.go", kind := eventKind.create })]
      changes := [("/w/file.txt", "create")]
      selects := [SelectCase.sendRun] }
    orphans := []
    inflight := [(360, { path := "/w/file.go", kind := eventKind.create })] }

/-- After the third creation, at 400 ms: the change of `file.go` has been recorded
too, and the timer of `file_test.go` is armed for 500 ms. -/
def filesAfterThird : Timed :=
  { st := { start with
      now := 400
      timers := [("/w/file_test.go",
        { e := { path := "/w/file_test.go", kind := eventKind.create }, deadline := some 500 })]
      runCh := { buf := 1, closed := false }
      fired := [(100, { path := "/w/file.txt", kind := eventKind.create }),
        (300, { path := "/w/file.go", kind := eventKind.create })]
      changes := [("/w/file.txt", "create"), ("/w/file.go", "create")]
      selects := [SelectCase.sendRun, SelectCase.dflt] }
    orphans := []
    inflight := [] }

/-- At 530 ms: the timer of `file_test.go` has fired at 500 ms and `logEvent` of
that call of `run` returns at 560 ms. -/
def filesThirdFired : Timed :=
  { st := { start with
      now := 530
      timers := [("/w/file_test.go",
        { e := { path := "/w/file_test.go", kind := eventKind.create }, deadline := none })]
      runCh := { buf := 1, closed := false }
      fired := [(100, { path := "/w/file.txt", kind := eventKind.create }),
        (300, { path := "/w/file.go", kind := eventKind.create }),
        (500, { path := "/w/file_test.go", kind := eventKind.create })]
      changes := [("/w/file.txt", "create"), ("/w/file.go", "create")]
      selects := [SelectCase.sendRun, SelectCase.dflt] }
    orphans := []
    inflight := [(560, { path := "/w/file_test.go", kind := eventKind.create })] }

/-- At 600 ms: the three changes have been recorded, one for each file. -/
def filesEnd : Timed :=
  { st := { start with
      now := 600
      runCh := { buf := 1, closed := false }
      fired := [(100, { path := "/w/file.txt", kind := eventKind.create }),
        (300, { path := "/w/file.go", kind := eventKind.create }),
        (500, { path := "/w/file_test.go", kind := eventKind.create })]
      changes := [("/w/file.txt", "create"), ("/w/file.go", "create"),
        ("/w/file_test.go", "create")]
      selects := [SelectCase.sendRun, SelectCase.dflt, SelectCase.dflt] }
    orphans := []
    inflight := [] }

/-! ## Facts about `parseEvent` and `validateTables` -/

theorem validateTables_fold (EqualFold : String → String → Bool) (name1 name2 : String)
    (a : List String) (acc : Bool × Bool) :
    a.foldl (validateTablesStep EqualFold name1 name2) acc =
      (acc.1 || a.any (fun s => EqualFold s name1), acc.2 || a.any (fun s => EqualFold s name2)) := by
  induction a generalizing acc with
  | nil => simp
  | cons s rest ih =>
    rw [List.foldl_cons, ih]
    obtain ⟨b1, b2⟩ := acc
    cases b1 <;> cases b2 <;> cases h1 : EqualFold s name1 <;> cases h2 : EqualFold s name2 <;>
      simp [validateTablesStep, h1, h2]

theorem validateTables_eq_any (EqualFold : String → String → Bool) (a : List String)
    (name1 name2 : String) :
    validateTables EqualFold a name1 name2 =
      (a.any (fun s => EqualFold s name1), a.any (fun s => EqualFold s name2)) := by
  simp [validateTables, validateTables_fold]

/-! ## Facts about `parseCommand` and `runCommands` -/

theorem splitChars_ne_nil (sep : Char) (cs : List Char) : splitChars sep cs ≠ [] := by
  cases cs with
  | nil => simp [splitChars]
  | cons c cs =>
    unfold splitChars
    split
    · simp
    · split <;> simp

theorem Join_append_head (a b : String) (rest : List String) (sep : String) :
    Join ((a ++ b) :: rest) sep = a ++ Join (b :: rest) sep := by
  cases rest with
  | nil => simp [Join]
  | cons x xs => simp [Join, String.append_assoc]

theorem Join_splitChars (cs : List Char) :
    Join ((splitChars ' ' cs).map String.mk) " " = String.mk cs := by
  induction cs with
  | nil => rfl
  | cons c cs ih =>
    unfold splitChars
    split
    · next hc =>
      subst hc
      obtain ⟨h, t, ht⟩ := List.exists_cons_of_ne_nil (splitChars_ne_nil ' ' cs)
      rw [ht] at ih ⊢
      simp only [List.map_cons, Join] at ih ⊢
      rw [ih]
      rfl
    · obtain ⟨h, t, ht⟩ := List.exists_cons_of_ne_nil (splitChars_ne_nil ' ' cs)
      rw [ht] at ih
      simp only [ht, List.map_cons] at ih ⊢
      have hsplit : String.mk (c :: h) = String.mk [c] ++ String.mk h := rfl
      rw [hsplit, Join_append_head, ih]
      rfl

theorem Join_Split (s : String) : Join (Split s) " " = s := by
  unfold Split
  rw [Join_splitChars]
  rfl

theorem Split_ne_nil (s : String) : Split s ≠ [] := by
  simp [Split, splitChars_ne_nil]

theorem foldl_blank_append (pre : String) (args : List String) (p : String) :
    args.foldl (fun b a => b ++ " " ++ a) (pre ++ p) =
      pre ++ args.foldl (fun b a => b ++ " " ++ a) p := by
  induction args generalizing p with
  | nil => rfl
  | cons a rest ih =>
    simp only [List.foldl_cons]
    rw [String.append_assoc, String.append_assoc, ← String.append_assoc p, ih]

theorem foldl_blank_eq_Join (name : String) (args : List String) :
    args.foldl (fun b a => b ++ " " ++ a) name = Join (name :: args) " " := by
  induction args generalizing name with
  | nil => rfl
  | cons a rest ih =>
    simp only [List.foldl_cons, Join]
    rw [String.append_assoc, foldl_blank_append, ih, Join_append_head, String.append_assoc]

/-- The text of a parsed command ends with the command as configured, when a
successful lookup gives a path that ends with the program name. -/
theorem parseCommand_String_ends (lib : ExecLib)
    (hlook : ∀ name, lib.isBase name = true → (lib.LookPath name).2 = false →
      (lib.LookPath name).1 ≠ "" → ∃ pre, (lib.LookPath name).1 = pre ++ name)
    (cmdline : String) : ∃ pre, (parseCommand lib cmdline).String = pre ++ cmdline := by
  obtain ⟨name, args, hcc⟩ := List.exists_cons_of_ne_nil (Split_ne_nil cmdline)
  have hjoin : Join (name :: args) " " = cmdline := by rw [← hcc, Join_Split]
  unfold parseCommand
  simp only [hcc, List.headD_cons, List.tail_cons]
  unfold Command
  by_cases hb : lib.isBase name = true
  · by_cases he : (lib.LookPath name).2 = true
    · refine ⟨"", ?_⟩
      by_cases hlp : (lib.LookPath name).1 = "" <;>
        simp [hb, he, hlp, Cmd.String, hjoin]
    · have he2 : (lib.LookPath name).2 = false := by simpa using he
      by_cases hlp : (lib.LookPath name).1 = ""
      · refine ⟨"", ?_⟩
        simp [hb, he2, hlp, Cmd.String, foldl_blank_eq_Join, hjoin]
      · obtain ⟨pre, hpre⟩ := hlook name hb he2 hlp
        refine ⟨pre, ?_⟩
        simp only [hb, he2, hlp, Cmd.String, if_true, ne_eq, not_false_eq_true, Bool.false_eq_true,
          if_false, List.tail_cons]
        rw [hpre, foldl_blank_append, foldl_blank_eq_Join, hjoin]
  · refine ⟨"", ?_⟩
    simp [hb, Cmd.String, foldl_blank_eq_Join, hjoin]

theorem runCommandsFrom_trace (env : RunEnv) (commandsStmt : Option CommandsStmt)
    (cmds : List String) (i : Nat) :
    (runCommandsFrom env commandsStmt i cmds).trace =
        ((cmds.enumFrom i).take ((cmds.enumFrom i).findIdx (stops env commandsStmt))).flatMap
            (block env commandsStmt) ++
          lastPart env commandsStmt
            ((cmds.enumFrom i)[(cmds.enumFrom i).findIdx (stops env commandsStmt)]?) ∧
      (runCommandsFrom env commandsStmt i cmds).panicked =
        panicsAt env commandsStmt
          ((cmds.enumFrom i)[(cmds.enumFrom i).findIdx (stops env commandsStmt)]?) := by
  induction cmds generalizing i with
  | nil => simp [runCommandsFrom, lastPart, panicsAt]
  | cons command rest ih =>
    simp only [runCommandsFrom, List.enumFrom_cons, List.findIdx_cons]
    by_cases hrec : recordFails commandsStmt i (parseCommand env.lib command) = true
    · simp [hrec, stops, lastPart, panicsAt]
    · by_cases herr : (env.CombinedOutput i (parseCommand env.lib command)).2 = true
      · simp [hrec, herr, stops, lastPart, panicsAt, block]
      · have hstop : stops env commandsStmt (i, command) = false := by
          simp [stops, hrec, herr]
        obtain ⟨ih1, ih2⟩ := ih (i + 1)
        simp only [hrec, herr, hstop, if_false, Bool.false_eq_true, cond_false, List.take_succ_cons,
          List.flatMap_cons, List.getElem?_cons_succ, ih1, ih2, block, List.append_assoc,
          and_self]

theorem concatAll_append (xs ys : List String) :
    concatAll (xs ++ ys) = concatAll xs ++ concatAll ys := by
  induction xs with
  | nil => simp [concatAll]
  | cons a rest ih => simp [concatAll, ih, String.append_assoc]

theorem written_append (a b : List Effect) : written (a ++ b) = written a ++ written b := by
  simp [written, concatAll_append]

theorem executed_append (a b : List Effect) : executed (a ++ b) = executed a ++ executed b := by
  simp [executed]

theorem recorded_append (a b : List Effect) : recorded (a ++ b) = recorded a ++ recorded b := by
  simp [recorded]

theorem written_block (env : RunEnv) (commandsStmt : Option CommandsStmt) (x : Nat × String) :
    written (block env commandsStmt x) =
      (env.CombinedOutput x.1 (parseCommand env.lib x.2)).1 := by
  cases commandsStmt <;>
    by_cases hw : env.Write x.1 (env.CombinedOutput x.1 (parseCommand env.lib x.2)).1 = true <;>
    simp [block, recordEffects, execEffects, written, concatAll, hw]

theorem executed_block (env : RunEnv) (commandsStmt : Option CommandsStmt) (x : Nat × String) :
    executed (block env commandsStmt x) = [parseCommand env.lib x.2] := by
  cases commandsStmt <;>
    by_cases hw : env.Write x.1 (env.CombinedOutput x.1 (parseCommand env.lib x.2)).1 = true <;>
    simp [block, recordEffects, execEffects, executed, hw]

theorem recorded_block (env : RunEnv) (Exec : CommandsStmt) (x : Nat × String) :
    recorded (block env (some Exec) x) = [(parseCommand env.lib x.2).String] := by
  by_cases hw : env.Write x.1 (env.CombinedOutput x.1 (parseCommand env.lib x.2)).1 = true <;>
    simp [block, recordEffects, execEffects, recorded, hw]

theorem written_bind_block (env : RunEnv) (commandsStmt : Option CommandsStmt)
    (l : List (Nat × String)) :
    written (l.flatMap (block env commandsStmt)) =
      concatAll (l.map fun x => (env.CombinedOutput x.1 (parseCommand env.lib x.2)).1) := by
  induction l with
  | nil => rfl
  | cons x rest ih => simp [List.flatMap_cons, written_append, written_block, ih, concatAll]

theorem executed_bind_block (env : RunEnv) (commandsStmt : Option CommandsStmt)
    (l : List (Nat × String)) :
    executed (l.flatMap (block env commandsStmt)) = l.map fun x => parseCommand env.lib x.2 := by
  induction l with
  | nil => rfl
  | cons x rest ih => simp [List.flatMap_cons, executed_append, executed_block, ih]

theorem recorded_bind_block (env : RunEnv) (Exec : CommandsStmt) (l : List (Nat × String)) :
    recorded (l.flatMap (block env (some Exec))) =
      l.map fun x => (parseCommand env.lib x.2).String := by
  induction l with
  | nil => rfl
  | cons x rest ih => simp [List.flatMap_cons, recorded_append, recorded_block, ih]

theorem runCommandsFrom_no_panic (env : RunEnv) (commandsStmt : Option CommandsStmt)
    (cmds : List String) (i : Nat)
    (h : (runCommandsFrom env commandsStmt i cmds).panicked = false) :
    executed (runCommandsFrom env commandsStmt i cmds).trace =
        ((cmds.enumFrom i).take ((cmds.enumFrom i).findIdx (execFails env) + 1)).map
          (fun x => parseCommand env.lib x.2) ∧
      written (runCommandsFrom env commandsStmt i cmds).trace =
        concatAll (((cmds.enumFrom i).take ((cmds.enumFrom i).findIdx (execFails env) + 1)).map
          fun x => (env.CombinedOutput x.1 (parseCommand env.lib x.2)).1) := by
  induction cmds generalizing i with
  | nil => simp [runCommandsFrom, executed, written, concatAll]
  | cons command rest ih =>
    simp only [runCommandsFrom, List.enumFrom_cons, List.findIdx_cons] at h ⊢
    by_cases hrec : recordFails commandsStmt i (parseCommand env.lib command) = true
    · simp [hrec] at h
    · have hex := executed_block env commandsStmt (i, command)
      have hwr := written_block env commandsStmt (i, command)
      simp only [block] at hex hwr
      by_cases herr : (env.CombinedOutput i (parseCommand env.lib command)).2 = true
      · simp [hrec, herr, execFails, hex, hwr, concatAll]
      · simp only [hrec, herr, if_false, Bool.false_eq_true] at h
        obtain ⟨ih1, ih2⟩ := ih (i + 1) h
        simp only [hrec, herr, if_false, Bool.false_eq_true, execFails, cond_false,
          List.take_succ_cons, List.map_cons, executed_append, written_append, hex, hwr,
          concatAll]
        rw [ih1, ih2]
        exact ⟨rfl, rfl⟩

theorem runCommandsFrom_none_no_panic (env : RunEnv) (cmds : List String) (i : Nat) :
    (runCommandsFrom env none i cmds).panicked = false := by
  induction cmds generalizing i with
  | nil => rfl
  | cons command rest ih =>
    simp only [runCommandsFrom, recordFails]
    by_cases herr : (env.CombinedOutput i (parseCommand env.lib command)).2 = true
    · simp [herr]
    · simp [herr, ih]

theorem recorded_lastPart (env : RunEnv) (Exec : CommandsStmt) (x : Nat × String) :
    recorded (lastPart env (some Exec) (some x)) = [(parseCommand env.lib x.2).String] := by
  by_cases h : recordFails (some Exec) x.1 (parseCommand env.lib x.2) = true
  · simp [lastPart, h, recorded]
  · simp [lastPart, h, recorded_block]

theorem executed_lastPart (env : RunEnv) (commandsStmt : Option CommandsStmt) (x : Nat × String) :
    executed (lastPart env commandsStmt (some x)) =
      if panicsAt env commandsStmt (some x) then [] else [parseCommand env.lib x.2] := by
  by_cases h : recordFails commandsStmt x.1 (parseCommand env.lib x.2) = true
  · simp [lastPart, panicsAt, h, executed]
  · simp [lastPart, panicsAt, h, executed_block]

theorem stops_some (env : RunEnv) (Exec : CommandsStmt) :
    stops env (some Exec) = fun x => loggerRejects env Exec x || execFails env x := by
  funext x
  rfl

theorem block_some (env : RunEnv) (Exec : CommandsStmt) :
    block env (some Exec) = loggedBlock env := by
  funext x
  rfl

theorem lastPart_some (env : RunEnv) (Exec : CommandsStmt) (o : Option (Nat × String)) :
    lastPart env (some Exec) o = loggedLast env Exec o := by
  cases o with
  | none => rfl
  | some x =>
    simp only [lastPart, loggedLast, recordFails, loggerRejects, block_some]

theorem panicsAt_some (env : RunEnv) (Exec : CommandsStmt) (o : Option (Nat × String)) :
    panicsAt env (some Exec) o = loggedPanics env Exec o := by
  cases o <;> rfl

theorem stopIndex_some (env : RunEnv) (Exec : CommandsStmt) (cmds : List String) :
    stopIndex env (some Exec) cmds = loggedStopIndex env Exec cmds := by
  simp only [stopIndex, loggedStopIndex, stops_some]

/-! ## Facts about the state machine -/

theorem handleEvent_frame (fe : FsEvent) (st : State) :
    handleEvent fe st = { st with timers := (handleEvent fe st).timers } := by
  unfold handleEvent
  simp only []
  split
  · rfl
  · split <;> rfl

theorem windowsEnd_append (flag : Bool) (l l2 : List Mark) :
    windowsEnd flag (l ++ l2) = (windowsEnd flag l).bind fun f => windowsEnd f l2 := by
  induction l generalizing flag with
  | nil => simp [windowsEnd]
  | cons m rest ih =>
    cases flag <;> cases m <;> simp [windowsEnd, ih]

theorem alternates_of_windowsEnd (flag : Bool) (l : List Mark) (f : Bool)
    (h : windowsEnd flag l = some f) : alternates flag l = true := by
  induction l generalizing flag with
  | nil => simp [alternates]
  | cons m rest ih =>
    cases flag <;> cases m <;> simp_all [windowsEnd, alternates]

theorem underWay_of_alternates (flag : Bool) (l : List Mark) (h : alternates flag l = true)
    (n : Nat) :
    0 ≤ underWay (l.take n) + (if flag then 1 else 0) ∧
      underWay (l.take n) + (if flag then 1 else 0) ≤ 1 := by
  induction l generalizing flag n with
  | nil => cases flag <;> simp [underWay]
  | cons m rest ih =>
    cases n with
    | zero => cases flag <;> simp [underWay]
    | succ n =>
      cases flag <;> cases m <;> simp [alternates] at h
      · have := ih true h n
        simp [underWay, List.take_succ_cons, List.count_cons] at this ⊢
        omega
      · have := ih false h n
        simp [underWay, List.take_succ_cons, List.count_cons] at this ⊢
        omega

theorem run_gate (changesStmt : Option ChangesStmt) (pick : Bool) (e : event) (st : State)
    (h1 : st.runCh.buf ≤ runChCap) (h3 : st.runCh.closed = true → st.exitCh = true) :
    (run changesStmt pick e st).runCh.buf ≤ runChCap ∧
      ((run changesStmt pick e st).runCh.closed = true → st.exitCh = true) ∧
      (run changesStmt pick e st).exitCh = st.exitCh ∧
      (run changesStmt pick e st).ch = st.ch ∧
      (run changesStmt pick e st).xpc = st.xpc ∧
      (run changesStmt pick e st).hpc = st.hpc ∧
      (run changesStmt pick e st).fw = st.fw ∧
      (run changesStmt pick e st).windows = st.windows := by
  unfold runChCap at *
  cases changesStmt <;>
    simp only [run, logEvent, selectRun, closeRunCh, sendRunCh, sendReady, runChCap] <;>
    split_ifs <;> simp_all

theorem fireTimer_gate (cfg : Target) (pick : Bool) (path : String) (st : State)
    (h1 : st.runCh.buf ≤ runChCap) (h3 : st.runCh.closed = true → st.exitCh = true) :
    (fireTimer cfg pick path st).runCh.buf ≤ runChCap ∧
      ((fireTimer cfg pick path st).runCh.closed = true → st.exitCh = true) ∧
      (fireTimer cfg pick path st).exitCh = st.exitCh ∧
      (fireTimer cfg pick path st).ch = st.ch ∧
      (fireTimer cfg pick path st).xpc = st.xpc ∧
      (fireTimer cfg pick path st).hpc = st.hpc ∧
      (fireTimer cfg pick path st).fw = st.fw ∧
      (fireTimer cfg pick path st).windows = st.windows := by
  unfold fireTimer
  split
  · exact ⟨h1, h3, rfl, rfl, rfl, rfl, rfl, rfl⟩
  · split
    · split
      · exact run_gate cfg.changesStmt pick _ _ h1 h3
      · exact ⟨h1, h3, rfl, rfl, rfl, rfl, rfl, rfl⟩
    · exact ⟨h1, h3, rfl, rfl, rfl, rfl, rfl, rfl⟩

theorem Inv_start : Inv start := by
  simp [Inv, start, runChCap, windowsEnd]

theorem Inv_step (cfg : Target) (st st1 : State) (a : Action) (hinv : Inv st)
    (h : step cfg st a = some st1) : Inv st1 := by
  obtain ⟨h1, h2, h3, h4⟩ := hinv
  cases a with
  | notify fe =>
    simp only [step] at h
    split_ifs at h
    simp only [Option.some.injEq] at h
    rw [handleEvent_frame] at h
    subst h
    exact ⟨h1, h2, h3, h4⟩
  | tick =>
    simp only [step] at h
    split_ifs at h
    simp only [Option.some.injEq] at h
    subst h
    exact ⟨h1, h2, h3, h4⟩
  | fire path pick =>
    simp only [step] at h
    split_ifs at h
    split at h
    · split_ifs at h
      simp only [Option.some.injEq] at h
      subst h
      obtain ⟨g1, g2, g3, g4, g5, _, _, g8⟩ := fireTimer_gate cfg pick path st h1 h3
      refine ⟨g1, ?_, ?_, ?_⟩
      · rw [g3, g4]; exact h2
      · rw [g3]; exact g2
      · rw [g8, g5]; exact h4
    · simp at h
  | stopSignal =>
    simp only [step] at h
    split_ifs at h
    simp only [Option.some.injEq] at h
    subst h
    exact ⟨h1, fun _ => rfl, h3, h4⟩
  | hStop =>
    simp only [step] at h
    split_ifs at h with hp hc
    simp only [Option.some.injEq] at h
    subst h
    simp only [Bool.and_eq_true, decide_eq_true_eq] at hc
    exact ⟨h1, fun _ => hc.2, fun _ => rfl, h4⟩
  | hRecv =>
    simp only [step] at h
    have hrecv : ∀ c, recvRunCh st.runCh = some c → c.buf ≤ runChCap ∧ c.closed = st.runCh.closed := by
      intro c hc
      unfold recvRunCh at hc
      split_ifs at hc <;> simp only [Option.some.injEq] at hc <;> subst hc
      · exact ⟨by simp only []; omega, rfl⟩
      · exact ⟨h1, rfl⟩
    split_ifs at h
    · cases hc : recvRunCh st.runCh with
      | none => simp [hc] at h
      | some c =>
        simp only [hc, Option.map_some', Option.some.injEq] at h
        subst h
        obtain ⟨c1, c2⟩ := hrecv c hc
        exact ⟨c1, h2, by simpa [c2] using h3, h4⟩
    · cases hc : recvRunCh st.runCh with
      | none => simp [hc] at h
      | some c =>
        simp only [hc, Option.map_some', Option.some.injEq] at h
        subst h
        obtain ⟨c1, c2⟩ := hrecv c hc
        exact ⟨c1, h2, by simpa [c2] using h3, h4⟩
  | hReturn =>
    simp only [step] at h
    split_ifs at h
    simp only [Option.some.injEq] at h
    subst h
    exact ⟨h1, h2, h3, h4⟩
  | xRecv =>
    simp only [step] at h
    split_ifs at h with hp hw hb hc
    · simp only [Option.some.injEq] at h
      subst h
      refine ⟨by simp only []; omega, h2, h3, ?_⟩
      simp only [hw] at h4
      simp [windowsEnd_append, h4, windowsEnd]
    · simp only [Option.some.injEq] at h
      subst h
      refine ⟨h1, h2, h3, ?_⟩
      simp only [hw] at h4
      simpa using h4
  | xFinish env =>
    simp only [step] at h
    split_ifs at h with hp hr hpan
    · simp only [Option.some.injEq] at h
      subst h
      exact ⟨h1, h2, h3, h4⟩
    · simp only [Option.some.injEq] at h
      subst h
      refine ⟨h1, h2, h3, ?_⟩
      simp only [hr] at h4
      simp [windowsEnd_append, h4, windowsEnd]

theorem Inv_execActs (cfg : Target) (acts : List Action) (st st1 : State) (hinv : Inv st)
    (h : execActs cfg st acts = some st1) : Inv st1 := by
  induction acts generalizing st with
  | nil =>
    simp only [execActs, Option.some.injEq] at h
    subst h
    exact hinv
  | cons a rest ih =>
    simp only [execActs] at h
    cases hs : step cfg st a with
    | none => simp [hs] at h
    | some s2 =>
      simp only [hs] at h
      exact ih s2 (Inv_step cfg st s2 a hinv hs) h

theorem Stuck_step (cfg : Target) (st st1 : State) (a : Action) (hs : Stuck st)
    (hno : a.isNotify = false) (h : step cfg st a = some st1) : Stuck st1 := by
  obtain ⟨ht, hc, hf, hx, hh⟩ := hs
  cases a with
  | notify fe => simp [Action.isNotify] at hno
  | tick =>
    simp only [step] at h
    split_ifs at h
    simp only [Option.some.injEq] at h
    subst h
    exact ⟨ht, hc, hf, hx, hh⟩
  | fire path pick =>
    simp [step, ht, timersGet] at h
  | stopSignal =>
    simp only [step] at h
    split_ifs at h
    simp only [Option.some.injEq] at h
    subst h
    exact ⟨ht, hc, hf, hx, hh⟩
  | hStop =>
    simp only [step] at h
    split_ifs at h with hp hl
    simp only [Option.some.injEq] at h
    subst h
    simp only [Bool.and_eq_true, decide_eq_true_eq] at hl
    rcases hh with ⟨_, hb⟩ | ⟨h2, _⟩
    · exact ⟨ht, hc, hf, hx, Or.inl ⟨Or.inr rfl, hb⟩⟩
    · rw [hl.1] at h2; cases h2
  | hRecv =>
    simp only [step] at h
    split_ifs at h with hp h1 h2
    · cases hr : recvRunCh st.runCh with
      | none => simp [hr] at h
      | some c =>
        simp only [hr, Option.map_some', Option.some.injEq] at h
        subst h
        unfold recvRunCh at hr
        split_ifs at hr with hb hcl
        · simp only [Option.some.injEq] at hr
          subst hr
          rcases hh with ⟨_, hb1⟩ | ⟨h3, _⟩
          · exact ⟨ht, hc, hf, hx, Or.inr ⟨rfl, by simp only []; omega⟩⟩
          · rw [h1] at h3; cases h3
        · rw [hc] at hcl; cases hcl
    · cases hr : recvRunCh st.runCh with
      | none => simp [hr] at h
      | some c =>
        exfalso
        unfold recvRunCh at hr
        rcases hh with ⟨h3 | h3, _⟩ | ⟨_, hb0⟩
        · rw [h2] at h3; cases h3
        · rw [h2] at h3; cases h3
        · split_ifs at hr with hb hcl
          · omega
          · rw [hc] at hcl; cases hcl
  | hReturn =>
    simp only [step] at h
    split_ifs at h with hp hcl
    exfalso
    rcases hh with ⟨h3 | h3, _⟩ | ⟨h3, _⟩ <;> rw [hcl] at h3 <;> cases h3
  | xRecv =>
    simp only [step] at h
    split_ifs at h with hp hw hb hcl
    · simp only [Option.some.injEq] at h
      subst h
      refine ⟨ht, hc, hf, by simp, ?_⟩
      rcases hh with ⟨h3, hb1⟩ | ⟨_, hb0⟩
      · exact Or.inl ⟨h3, by simp only []; omega⟩
      · omega
    · rw [hc] at hcl; cases hcl
  | xFinish env =>
    simp only [step] at h
    split_ifs at h with hp hr hpan
    · simp only [Option.some.injEq] at h
      subst h
      exact ⟨ht, hc, hf, hx, hh⟩
    · simp only [Option.some.injEq] at h
      subst h
      exact ⟨ht, hc, hf, by simp, hh⟩

theorem Stuck_execActs (cfg : Target) (acts : List Action) (st st1 : State) (hs : Stuck st)
    (hno : ∀ a ∈ acts, a.isNotify = false) (h : execActs cfg st acts = some st1) :
    Stuck st1 := by
  induction acts generalizing st with
  | nil =>
    simp only [execActs, Option.some.injEq] at h
    subst h
    exact hs
  | cons a rest ih =>
    simp only [execActs] at h
    cases hstep : step cfg st a with
    | none => simp [hstep] at h
    | some s2 =>
      simp only [hstep] at h
      exact ih s2 (Stuck_step cfg st s2 a hs (hno a (List.mem_cons_self a rest)) hstep)
        (fun b hb => hno b (List.mem_cons_of_mem a hb)) h

theorem run_occupied (changesStmt : Option ChangesStmt) (pick : Bool) (e : event) (st : State)
    (hb : st.runCh.buf = runChCap) (hc : st.runCh.closed = false) (he : st.exitCh = false)
    (hp : st.panicked = false) :
    (run changesStmt pick e st).runCh = st.runCh ∧
      (run changesStmt pick e st).exitCh = st.exitCh ∧
      (run changesStmt pick e st).xpc = st.xpc ∧
      (run changesStmt pick e st).windows = st.windows ∧
      (((run changesStmt pick e st).panicked = false ∧
          (run changesStmt pick e st).selects = st.selects ++ [SelectCase.dflt]) ∨
        ((run changesStmt pick e st).panicked = true ∧
          (run changesStmt pick e st).selects = st.selects)) := by
  unfold runChCap at *
  cases changesStmt <;>
    simp only [run, logEvent, selectRun, closeRunCh, sendRunCh, sendReady, runChCap] <;>
    split_ifs <;> simp_all

theorem runAll_cons (cfg : Target) (f : event × Bool) (rest : List (event × Bool))
    (st : State) :
    runAll cfg (f :: rest) st =
      runAll cfg rest (if st.panicked then st else run cfg.changesStmt f.2 f.1 st) := rfl

theorem runAll_panicked (cfg : Target) (fs : List (event × Bool)) (st : State)
    (hp : st.panicked = true) : runAll cfg fs st = st := by
  induction fs with
  | nil => rfl
  | cons f rest ih =>
    rw [runAll_cons]
    simp only [hp, if_true]
    exact ih

theorem runAll_occupied (cfg : Target) (fs : List (event × Bool)) (st : State)
    (hb : st.runCh.buf = runChCap) (hc : st.runCh.closed = false) (he : st.exitCh = false) :
    ∃ k, k ≤ fs.length ∧
      (runAll cfg fs st).runCh = st.runCh ∧
      (runAll cfg fs st).selects = st.selects ++ List.replicate k SelectCase.dflt ∧
      ((runAll cfg fs st).panicked = false → k = fs.length) ∧
      (runAll cfg fs st).xpc = st.xpc ∧
      (runAll cfg fs st).windows = st.windows := by
  induction fs generalizing st with
  | nil =>
    refine ⟨0, Nat.le_refl _, rfl, ?_, fun _ => rfl, rfl, rfl⟩
    simp [runAll]
  | cons f rest ih =>
    by_cases hp : st.panicked = true
    · rw [runAll_panicked cfg _ st hp]
      refine ⟨0, Nat.zero_le _, rfl, by simp, ?_, rfl, rfl⟩
      intro h
      rw [hp] at h
      cases h
    · have hp2 : st.panicked = false := by simpa using hp
      rw [runAll_cons]
      simp only [hp2, Bool.false_eq_true, if_false]
      obtain ⟨q1, q2, q3, q4, q5⟩ := run_occupied cfg.changesStmt f.2 f.1 st hb hc he hp2
      rcases q5 with ⟨_, qs⟩ | ⟨qp, qs⟩
      · obtain ⟨k, hk, r1, r2, r3, r4, r5⟩ := ih (run cfg.changesStmt f.2 f.1 st)
          (by rw [q1]; exact hb) (by rw [q1]; exact hc) (by rw [q2]; exact he)
        refine ⟨k + 1, by simp only [List.length_cons]; omega, by rw [r1, q1], ?_, ?_,
          by rw [r4, q3], by rw [r5, q4]⟩
        · rw [r2, qs, List.append_assoc, List.replicate_succ]
          rfl
        · intro h
          simp only [List.length_cons]
          rw [r3 h]
      · rw [runAll_panicked cfg rest _ qp]
        refine ⟨0, Nat.zero_le _, q1, by simpa using qs, ?_, q3, q4⟩
        intro h
        rw [qp] at h
        cases h

theorem run_exec_frame (changesStmt : Option ChangesStmt) (pick : Bool) (e : event)
    (st : State) :
    (run changesStmt pick e st).windows = st.windows ∧
      (run changesStmt pick e st).sink = st.sink ∧
      (run changesStmt pick e st).cmdLog = st.cmdLog ∧
      (run changesStmt pick e st).xpc = st.xpc := by
  cases changesStmt <;>
    simp only [run, logEvent, selectRun, closeRunCh, sendRunCh, sendReady] <;>
    split_ifs <;> simp

theorem fireTimer_exec_frame (cfg : Target) (pick : Bool) (path : String) (st : State) :
    (fireTimer cfg pick path st).windows = st.windows ∧
      (fireTimer cfg pick path st).sink = st.sink ∧
      (fireTimer cfg pick path st).cmdLog = st.cmdLog ∧
      (fireTimer cfg pick path st).xpc = st.xpc := by
  unfold fireTimer
  split
  · exact ⟨rfl, rfl, rfl, rfl⟩
  · split
    · split
      · exact run_exec_frame cfg.changesStmt pick _ _
      · exact ⟨rfl, rfl, rfl, rfl⟩
    · exact ⟨rfl, rfl, rfl, rfl⟩

/-- Only the two steps of the executor touch the record of executions, the log
sink and the command log. -/
theorem step_exec_frame (cfg : Target) (st st1 : State) (a : Action)
    (h : step cfg st a = some st1) (h1 : a ≠ Action.xRecv)
    (h2 : ∀ env, a ≠ Action.xFinish env) :
    st1.windows = st.windows ∧ st1.sink = st.sink ∧ st1.cmdLog = st.cmdLog ∧
      st1.xpc = st.xpc := by
  cases a with
  | notify fe =>
    simp only [step] at h
    split_ifs at h
    simp only [Option.some.injEq] at h
    rw [handleEvent_frame] at h
    subst h
    exact ⟨rfl, rfl, rfl, rfl⟩
  | tick =>
    simp only [step] at h
    split_ifs at h
    simp only [Option.some.injEq] at h
    subst h
    exact ⟨rfl, rfl, rfl, rfl⟩
  | fire path pick =>
    simp only [step] at h
    split_ifs at h
    split at h
    · split_ifs at h
      simp only [Option.some.injEq] at h
      subst h
      exact fireTimer_exec_frame cfg pick path st
    · simp at h
  | stopSignal =>
    simp only [step] at h
    split_ifs at h
    simp only [Option.some.injEq] at h
    subst h
    exact ⟨rfl, rfl, rfl, rfl⟩
  | hStop =>
    simp only [step] at h
    split_ifs at h
    simp only [Option.some.injEq] at h
    subst h
    exact ⟨rfl, rfl, rfl, rfl⟩
  | hRecv =>
    simp only [step] at h
    split_ifs at h <;>
    · cases hc : recvRunCh st.runCh with
      | none => simp [hc] at h
      | some c =>
        simp only [hc, Option.map_some', Option.some.injEq] at h
        subst h
        exact ⟨rfl, rfl, rfl, rfl⟩
  | hReturn =>
    simp only [step] at h
    split_ifs at h
    simp only [Option.some.injEq] at h
    subst h
    exact ⟨rfl, rfl, rfl, rfl⟩
  | xRecv => exact absurd rfl h1
  | xFinish env => exact absurd rfl (h2 env)

/-! ## Facts about the registry and the quiet interval -/

theorem timersGet_set_same (m : Timers) (k : String) (t : Timer) :
    timersGet (timersSet m k t) k = some t := by
  induction m with
  | nil => simp [timersSet, timersGet]
  | cons x rest ih =>
    obtain ⟨k0, t0⟩ := x
    by_cases h : k0 = k <;> simp [timersSet, timersGet, h, ih]

theorem timersGet_set_other (m : Timers) (k k2 : String) (t : Timer) (h : k2 ≠ k) :
    timersGet (timersSet m k t) k2 = timersGet m k2 := by
  induction m with
  | nil => simp [timersSet, timersGet, Ne.symm h]
  | cons x rest ih =>
    obtain ⟨k0, t0⟩ := x
    by_cases h0 : k0 = k
    · subst h0
      simp [timersSet, timersGet, Ne.symm h]
    · by_cases h1 : k0 = k2
      · subst h1
        simp [timersSet, timersGet, h0]
      · simp [timersSet, timersGet, h0, h1, ih]

theorem timersGet_delete_same (m : Timers) (k : String) :
    timersGet (timersDelete m k) k = none := by
  induction m with
  | nil => simp [timersDelete, timersGet]
  | cons x rest ih =>
    obtain ⟨k0, t0⟩ := x
    by_cases h : k0 = k <;> simp [timersDelete, timersGet, h, ih]

theorem timersGet_delete_other (m : Timers) (k k2 : String) (h : k2 ≠ k) :
    timersGet (timersDelete m k) k2 = timersGet m k2 := by
  induction m with
  | nil => simp [timersDelete, timersGet]
  | cons x rest ih =>
    obtain ⟨k0, t0⟩ := x
    by_cases h0 : k0 = k
    · subst h0
      simp [timersDelete, timersGet, Ne.symm h, ih]
    · by_cases h1 : k0 = k2
      · subst h1
        simp [timersDelete, timersGet, h0]
      · simp [timersDelete, timersGet, h0, h1, ih]

theorem timersGet_mem (m : Timers) (k : String) (t : Timer) (h : timersGet m k = some t) :
    (k, t) ∈ m := by
  induction m with
  | nil => simp [timersGet] at h
  | cons x rest ih =>
    obtain ⟨k0, t0⟩ := x
    by_cases h0 : k0 = k
    · simp only [timersGet, h0, if_true, Option.some.injEq] at h
      simp [h0, h]
    · simp only [timersGet, h0, if_false] at h
      exact List.mem_cons_of_mem _ (ih h)

theorem WF_set (m : Timers) (k : String) (t : Timer) (hm : WF m) (ht : t.e.path = k) :
    WF (timersSet m k t) := by
  induction m with
  | nil =>
    intro x hx
    simp only [timersSet, List.mem_singleton] at hx
    subst hx
    exact ht
  | cons x rest ih =>
    obtain ⟨k0, t0⟩ := x
    have hrest : WF rest := fun y hy => hm y (List.mem_cons_of_mem _ hy)
    intro y hy
    by_cases h0 : k0 = k
    · simp only [timersSet, h0, if_true, List.mem_cons] at hy
      rcases hy with rfl | hy
      · exact ht
      · exact hrest y hy
    · simp only [timersSet, h0, if_false, List.mem_cons] at hy
      rcases hy with rfl | hy
      · exact hm _ (List.mem_cons_self _ _)
      · exact ih hrest y hy

theorem WF_delete (m : Timers) (k : String) (hm : WF m) : WF (timersDelete m k) := by
  induction m with
  | nil => simpa [timersDelete] using hm
  | cons x rest ih =>
    obtain ⟨k0, t0⟩ := x
    have hrest : WF rest := fun y hy => hm y (List.mem_cons_of_mem _ hy)
    by_cases h0 : k0 = k
    · simpa [timersDelete, h0] using ih hrest
    · intro y hy
      simp only [timersDelete, h0, if_false, List.mem_cons] at hy
      rcases hy with rfl | hy
      · exact hm _ (List.mem_cons_self _ _)
      · exact ih hrest y hy

theorem firedFor_append_other (path : String) (st : State) (fired : List (Nat × event))
    (x : Nat × event) (hf : fired = st.fired ++ [x]) (hx : x.2.path ≠ path) :
    fired.filter (fun y => decide (y.2.path = path)) = firedFor path st := by
  subst hf
  simp [firedFor, List.filter_append, hx]

theorem firedFor_append_same (path : String) (st : State) (fired : List (Nat × event))
    (x : Nat × event) (hf : fired = st.fired ++ [x]) (hx : x.2.path = path) :
    fired.filter (fun y => decide (y.2.path = path)) = firedFor path st ++ [x] := by
  subst hf
  simp [firedFor, List.filter_append, hx]

theorem fireTimer_some (cfg : Target) (pick : Bool) (q : String) (st : State) (t : Timer)
    (hp : st.panicked = false) (hg : timersGet st.timers q = some t)
    (hd : t.due st.now = true) :
    fireTimer cfg pick q st =
      run cfg.changesStmt pick t.e { st with timers := timersSet st.timers q t.Stop } := by
  unfold fireTimer
  rw [if_neg (by rw [hp]; simp)]
  simp only [hg, hd, if_true]

theorem fireTimer_none (cfg : Target) (pick : Bool) (q : String) (st : State)
    (hg : timersGet st.timers q = none) : fireTimer cfg pick q st = st := by
  unfold fireTimer
  split
  · rfl
  · simp only [hg]

theorem fireTimer_not_due (cfg : Target) (pick : Bool) (q : String) (st : State) (t : Timer)
    (hg : timersGet st.timers q = some t) (hd : t.due st.now = false) :
    fireTimer cfg pick q st = st := by
  unfold fireTimer
  split
  · rfl
  · simp only [hg, hd, Bool.false_eq_true, if_false]

theorem parseEvent_path (fe : FsEvent) : (parseEvent fe).path = fe.Name := by
  unfold parseEvent
  simp only []
  split_ifs <;> rfl

theorem timersGet_key_mem (m : Timers) (k : String) (t : Timer) (h : timersGet m k = some t) :
    k ∈ m.map Prod.fst :=
  List.mem_map_of_mem Prod.fst (timersGet_mem m k t h)

theorem advance_no_timers (cfg : Target) (pick : Bool) (n : Nat) (st : State)
    (ht : st.timers = []) : advance cfg pick n st = { st with now := st.now + n } := by
  induction n generalizing st with
  | zero => rfl
  | succ n ih =>
    have htick : tick cfg pick st = { st with now := st.now + 1 } := by
      simp [tick, fireDue, ht]
    show advance cfg pick n (tick cfg pick st) = _
    rw [htick, ih { st with now := st.now + 1 } ht]
    simp only [State.mk.injEq, and_true, true_and]
    omega

theorem deliver_chmod (cfg : Target) (pick : Bool) (st : State) (x : Nat × FsEvent)
    (hk : (parseEvent x.2).kind = eventKind.chmod) :
    deliver cfg pick st x = advanceTo cfg pick x.1 st := by
  unfold deliver
  simp only []
  split
  · rfl
  · simp [handleEvent, hk]

theorem foldl_deliver_chmod (cfg : Target) (pick : Bool) (evs : List (Nat × FsEvent))
    (st : State) (ht : st.timers = [])
    (hk : ∀ x ∈ evs, (parseEvent x.2).kind = eventKind.chmod) :
    ∃ n, evs.foldl (deliver cfg pick) st = { st with now := n } := by
  induction evs generalizing st with
  | nil => exact ⟨st.now, rfl⟩
  | cons x rest ih =>
    simp only [List.foldl_cons]
    rw [deliver_chmod cfg pick st x (hk x (List.mem_cons_self x rest))]
    unfold advanceTo
    rw [advance_no_timers cfg pick _ st ht]
    obtain ⟨n, hn⟩ := ih { st with now := st.now + (x.1 - st.now) } ht
      (fun y hy => hk y (List.mem_cons_of_mem x hy))
    exact ⟨n, hn⟩

theorem Operating_start : Operating start :=
  ⟨rfl, rfl, rfl, rfl, fun _ hx => nomatch hx⟩

theorem NeverFails_none : NeverFails none :=
  fun _ h => nomatch h

/-- A call of `run` made once `runCh` is closed panics, whichever case its
`select` takes: the receive on `exitCh` closes a closed channel, the send sends on
a closed channel (and a failing `logEvent` has panicked before). -/
theorem run_closed_panics (changesStmt : Option ChangesStmt) (pick : Bool) (e : event)
    (st : State) (hc : st.runCh.closed = true) :
    (run changesStmt pick e st).panicked = true := by
  cases changesStmt <;>
    simp only [run, logEvent, selectRun, closeRunCh, sendRunCh, sendReady] <;>
    split_ifs <;> simp_all

/-! ## Facts about calls of `run` that take time -/

theorem logEvent_now (changesStmt : Option ChangesStmt) (e : event) (st : State) :
    (logEvent changesStmt e st).now = st.now := by
  cases changesStmt with
  | none => rfl
  | some Exec =>
    simp only [logEvent]
    split_ifs <;> rfl

theorem selectRun_now (pick : Bool) (st : State) : (selectRun pick st).now = st.now := by
  simp only [selectRun, closeRunCh, sendRunCh]
  split_ifs <;> rfl

theorem runEnd_now (changesStmt : Option ChangesStmt) (pick : Bool) (e : event) (s : Timed) :
    (runEnd changesStmt pick e s).st.now = s.st.now := by
  simp only [runEnd]
  split_ifs
  · exact logEvent_now changesStmt e s.st
  · rw [selectRun_now]
    exact logEvent_now changesStmt e s.st

theorem expireEntry_now (lat : Nat → Nat) (q : String) (s : Timed) :
    (expireEntry lat q s).st.now = s.st.now := by
  unfold expireEntry
  split
  · rfl
  · split
    · split
      · rfl
      · rfl
    · rfl

theorem foldl_now (f : Timed → α → Timed) (hf : ∀ s a, (f s a).st.now = s.st.now)
    (l : List α) (s : Timed) : (l.foldl f s).st.now = s.st.now := by
  induction l generalizing s with
  | nil => rfl
  | cons a rest ih =>
    simp only [List.foldl_cons]
    rw [ih, hf]

theorem expireEntries_now (lat : Nat → Nat) (s : Timed) :
    (expireEntries lat s).st.now = s.st.now :=
  foldl_now _ (fun s1 q => expireEntry_now lat q s1) _ s

theorem expireOrphans_now (lat : Nat → Nat) (s : Timed) :
    (expireOrphans lat s).st.now = s.st.now := by
  unfold expireOrphans
  split
  · rfl
  · exact foldl_now (fun s1 (t : Timer) => runBegin lat t.e s1) (fun _ _ => rfl) _ _

theorem finishRuns_now (changesStmt : Option ChangesStmt) (pick : Bool) (s : Timed) :
    (finishRuns changesStmt pick s).st.now = s.st.now := by
  unfold finishRuns
  rw [foldl_now]
  intro s1 x
  split_ifs
  · rfl
  · exact runEnd_now changesStmt pick x.2 s1

theorem timedTick_now (cfg : Target) (lat : Nat → Nat) (pick : Bool) (s : Timed) :
    (timedTick cfg lat pick s).st.now = s.st.now + 1 := by
  unfold timedTick
  rw [finishRuns_now, expireOrphans_now, expireEntries_now]

theorem timedAdvance_now (cfg : Target) (lat : Nat → Nat) (pick : Bool) (n : Nat) (s : Timed) :
    (timedAdvance cfg lat pick n s).st.now = s.st.now + n := by
  induction n generalizing s with
  | zero => rfl
  | succ n ih =>
    show (timedAdvance cfg lat pick n (timedTick cfg lat pick s)).st.now = _
    rw [ih, timedTick_now]
    omega

theorem expireEntry_none (lat : Nat → Nat) (q : String) (s : Timed)
    (hg : timersGet s.st.timers q = none) : expireEntry lat q s = s := by
  unfold expireEntry
  split
  · rfl
  · simp only [hg]

theorem expireEntry_not_due (lat : Nat → Nat) (q : String) (s : Timed) (t : Timer)
    (hg : timersGet s.st.timers q = some t) (hd : t.due s.st.now = false) :
    expireEntry lat q s = s := by
  unfold expireEntry
  split
  · rfl
  · simp only [hg, hd, Bool.false_eq_true, if_false]

theorem expireEntry_some (lat : Nat → Nat) (q : String) (s : Timed) (t : Timer)
    (hp : s.st.panicked = false) (hg : timersGet s.st.timers q = some t)
    (hd : t.due s.st.now = true) :
    expireEntry lat q s =
      runBegin lat t.e
        { s with st := { s.st with timers := timersSet s.st.timers q t.Stop } } := by
  unfold expireEntry
  rw [if_neg (by rw [hp]; simp)]
  simp only [hg, hd, if_true]

/-- The expiry of the timer of another path leaves everything of the path as it
is. -/
theorem expireEntry_other (lat : Nat → Nat) (path q : String) (s : Timed)
    (hop : Operating s.st) (hq : q ≠ path) :
    Operating (expireEntry lat q s).st ∧
      timersGet (expireEntry lat q s).st.timers path = timersGet s.st.timers path ∧
      firedFor path (expireEntry lat q s).st = firedFor path s.st ∧
      (expireEntry lat q s).orphans = s.orphans ∧
      (noFlight path s → noFlight path (expireEntry lat q s)) := by
  obtain ⟨hp, hl, he, hc, hwf⟩ := hop
  cases hg : timersGet s.st.timers q with
  | none =>
    rw [expireEntry_none lat q s hg]
    exact ⟨⟨hp, hl, he, hc, hwf⟩, rfl, rfl, rfl, fun h => h⟩
  | some t =>
    cases hd : t.due s.st.now with
    | false =>
      rw [expireEntry_not_due lat q s t hg hd]
      exact ⟨⟨hp, hl, he, hc, hwf⟩, rfl, rfl, rfl, fun h => h⟩
    | true =>
      rw [expireEntry_some lat q s t hp hg hd]
      have hpath : t.e.path = q := hwf (q, t) (timersGet_mem s.st.timers q t hg)
      refine ⟨⟨hp, hl, he, hc, ?_⟩, ?_, ?_, rfl, ?_⟩
      · exact WF_set _ _ _ hwf hpath
      · exact timersGet_set_other _ _ _ _ (Ne.symm hq)
      · exact firedFor_append_other path s.st _ (s.st.now, t.e) rfl (by rw [hpath]; exact hq)
      · intro hnf x hx
        simp only [runBegin, List.mem_append, List.mem_singleton] at hx
        rcases hx with hx | hx
        · exact hnf x hx
        · rw [hx, hpath]
          exact hq

/-- The timer of the path expires: its entry stays in `timers`, no longer armed,
and one more call of `run` is made for the path, with the event of the timer. -/
theorem expireEntry_own_due (lat : Nat → Nat) (path : String) (e : event) (d : Nat)
    (s : Timed) (hop : Operating s.st)
    (hg : timersGet s.st.timers path = some { e := e, deadline := some d })
    (hd : d ≤ s.st.now) :
    Operating (expireEntry lat path s).st ∧
      timersGet (expireEntry lat path s).st.timers path = some { e := e, deadline := none } ∧
      firedFor path (expireEntry lat path s).st = firedFor path s.st ++ [(s.st.now, e)] ∧
      (expireEntry lat path s).orphans = s.orphans := by
  obtain ⟨hp, hl, he, hc, hwf⟩ := hop
  have hpath : e.path = path := hwf (path, _) (timersGet_mem s.st.timers path _ hg)
  rw [expireEntry_some lat path s _ hp hg (by simp [Timer.due, hd])]
  refine ⟨⟨hp, hl, he, hc, ?_⟩, ?_, ?_, rfl⟩
  · exact WF_set _ _ _ hwf hpath
  · exact timersGet_set_same _ _ _
  · exact firedFor_append_same path s.st _ (s.st.now, e) rfl hpath

theorem runBegin_other (lat : Nat → Nat) (path : String) (e : event) (s : Timed)
    (he : e.path ≠ path) :
    (Operating s.st → Operating (runBegin lat e s).st) ∧
      (runBegin lat e s).st.timers = s.st.timers ∧
      firedFor path (runBegin lat e s).st = firedFor path s.st ∧
      (runBegin lat e s).orphans = s.orphans ∧
      (noFlight path s → noFlight path (runBegin lat e s)) := by
  refine ⟨fun h => h, rfl, ?_, rfl, ?_⟩
  · exact firedFor_append_other path s.st _ (s.st.now, e) rfl he
  · intro hnf x hx
    simp only [runBegin, List.mem_append, List.mem_singleton] at hx
    rcases hx with hx | hx
    · exact hnf x hx
    · rw [hx]
      exact he

theorem foldl_runBegin_other (lat : Nat → Nat) (path : String) (l : List Timer) (s : Timed)
    (hl : ∀ t ∈ l, t.e.path ≠ path) :
    (Operating s.st → Operating (l.foldl (fun s1 t => runBegin lat t.e s1) s).st) ∧
      (l.foldl (fun s1 t => runBegin lat t.e s1) s).st.timers = s.st.timers ∧
      firedFor path (l.foldl (fun s1 t => runBegin lat t.e s1) s).st = firedFor path s.st ∧
      (l.foldl (fun s1 t => runBegin lat t.e s1) s).orphans = s.orphans ∧
      (noFlight path s → noFlight path (l.foldl (fun s1 t => runBegin lat t.e s1) s)) := by
  induction l generalizing s with
  | nil => exact ⟨fun h => h, rfl, rfl, rfl, fun h => h⟩
  | cons t rest ih =>
    simp only [List.foldl_cons]
    obtain ⟨a1, a2, a3, a4, a5⟩ := runBegin_other lat path t.e s (hl t (List.mem_cons_self t rest))
    obtain ⟨b1, b2, b3, b4, b5⟩ := ih (runBegin lat t.e s)
      (fun u hu => hl u (List.mem_cons_of_mem t hu))
    exact ⟨fun h => b1 (a1 h), by rw [b2, a2], by rw [b3, a3], by rw [b4, a4],
      fun h => b5 (a5 h)⟩

/-- The expiry of the timers that are armed without an entry leaves everything
of the path as it is, when none of them belongs to the path. -/
theorem expireOrphans_other (lat : Nat → Nat) (path : String) (s : Timed)
    (hno : noOrphan path s) :
    (Operating s.st → Operating (expireOrphans lat s).st) ∧
      (expireOrphans lat s).st.timers = s.st.timers ∧
      firedFor path (expireOrphans lat s).st = firedFor path s.st ∧
      noOrphan path (expireOrphans lat s) ∧
      (noFlight path s → noFlight path (expireOrphans lat s)) := by
  unfold expireOrphans
  split
  · exact ⟨fun h => h, rfl, rfl, hno, fun h => h⟩
  · obtain ⟨b1, b2, b3, b4, b5⟩ := foldl_runBegin_other lat path
      (s.orphans.filter fun t => t.due s.st.now)
      { s with orphans := s.orphans.filter fun t => !t.due s.st.now }
      (fun t ht => hno t (List.mem_of_mem_filter ht))
    refine ⟨b1, b2, b3, ?_, b5⟩
    intro t ht
    rw [b4] at ht
    exact hno t (List.mem_of_mem_filter ht)

theorem orphaned_mem (m : Timers) (q : String) (t : Timer) (h : t ∈ orphaned m q) :
    timersGet m q = some t ∧ t.deadline ≠ none := by
  unfold orphaned at h
  cases hg : timersGet m q with
  | none => simp [hg] at h
  | some u =>
    simp only [hg] at h
    cases hd : u.deadline with
    | none => simp [hd] at h
    | some d =>
      simp only [hd, List.mem_singleton] at h
      subst h
      exact ⟨rfl, by simp [hd]⟩

/-- The end of a call of `run` in an operating target whose changes statement
does not fail. -/
theorem runEnd_operating (changesStmt : Option ChangesStmt) (pick : Bool) (e : event)
    (s : Timed) (hacc : NeverFails changesStmt) (hp : s.st.panicked = false)
    (he : s.st.exitCh = false) (hc : s.st.runCh.closed = false) :
    (runEnd changesStmt pick e s).st.panicked = false ∧
      (runEnd changesStmt pick e s).st.hpc = s.st.hpc ∧
      (runEnd changesStmt pick e s).st.exitCh = false ∧
      (runEnd changesStmt pick e s).st.runCh.closed = false ∧
      (runEnd changesStmt pick e s).st.timers = timersDelete s.st.timers e.path ∧
      (runEnd changesStmt pick e s).st.fired = s.st.fired ∧
      (runEnd changesStmt pick e s).inflight = s.inflight ∧
      (runEnd changesStmt pick e s).orphans = s.orphans ++ orphaned s.st.timers e.path := by
  cases changesStmt with
  | none =>
    simp only [runEnd, logEvent, selectRun, closeRunCh, sendRunCh, sendReady]
    split_ifs <;> simp_all
  | some Exec =>
    have hex : ∀ n path kind, Exec n path kind = false := hacc Exec rfl
    simp only [runEnd, logEvent, selectRun, closeRunCh, sendRunCh, sendReady, hex]
    split_ifs <;> simp_all

/-- The end of a call of `run` for another path leaves everything of the path as
it is. -/
theorem runEnd_other (changesStmt : Option ChangesStmt) (pick : Bool) (path : String)
    (e : event) (s : Timed) (hacc : NeverFails changesStmt) (hop : Operating s.st)
    (hne : e.path ≠ path) :
    Operating (runEnd changesStmt pick e s).st ∧
      timersGet (runEnd changesStmt pick e s).st.timers path = timersGet s.st.timers path ∧
      firedFor path (runEnd changesStmt pick e s).st = firedFor path s.st ∧
      (runEnd changesStmt pick e s).inflight = s.inflight ∧
      (noOrphan path s → noOrphan path (runEnd changesStmt pick e s)) := by
  obtain ⟨hp, hl, he, hc, hwf⟩ := hop
  obtain ⟨r1, r2, r3, r4, r5, r6, r7, r8⟩ := runEnd_operating changesStmt pick e s hacc hp he hc
  refine ⟨⟨r1, by rw [r2]; exact hl, r3, r4, by rw [r5]; exact WF_delete _ _ hwf⟩, ?_, ?_, r7, ?_⟩
  · rw [r5]
    exact timersGet_delete_other _ _ _ (Ne.symm hne)
  · simp only [firedFor, r6]
  · intro hno t ht
    rw [r8] at ht
    rcases List.mem_append.mp ht with ht | ht
    · exact hno t ht
    · have hmem := (orphaned_mem _ _ _ ht).1
      rw [hwf (e.path, t) (timersGet_mem _ _ _ hmem)]
      exact hne

/-- Once no timer of the path is armed, the end of any call of `run` leaves it
so. -/
theorem runEnd_Settled (changesStmt : Option ChangesStmt) (pick : Bool) (path : String)
    (F : List (Nat × event)) (e : event) (s : Timed) (hacc : NeverFails changesStmt)
    (h : Settled path F s) : Settled path F (runEnd changesStmt pick e s) := by
  obtain ⟨hop, hg, hno, hF⟩ := h
  by_cases hne : e.path = path
  · obtain ⟨hp, hl, he, hc, hwf⟩ := hop
    obtain ⟨r1, r2, r3, r4, r5, r6, r7, r8⟩ :=
      runEnd_operating changesStmt pick e s hacc hp he hc
    refine ⟨⟨r1, by rw [r2]; exact hl, r3, r4, by rw [r5]; exact WF_delete _ _ hwf⟩, ?_, ?_, ?_⟩
    · intro t ht
      rw [r5, hne, timersGet_delete_same] at ht
      cases ht
    · intro t ht
      rw [r8] at ht
      rcases List.mem_append.mp ht with ht | ht
      · exact hno t ht
      · obtain ⟨hmem, hd⟩ := orphaned_mem _ _ _ ht
        rw [hne] at hmem
        exact absurd (hg t hmem) hd
    · simp only [firedFor, r6]
      exact hF
  · obtain ⟨r1, r2, r3, _, r5⟩ := runEnd_other changesStmt pick path e s hacc hop hne
    exact ⟨r1, by rw [r2]; exact hg, r5 hno, by rw [r3]; exact hF⟩

theorem finishRuns_Held (changesStmt : Option ChangesStmt) (pick : Bool) (path : String)
    (X : Option Timer) (F : List (Nat × event)) (s : Timed) (hacc : NeverFails changesStmt)
    (h : Held path X F s) : Held path X F (finishRuns changesStmt pick s) := by
  have hfold : ∀ (l : List (Nat × event)) (s1 : Timed), (∀ x ∈ l, x.2.path ≠ path) →
      Held path X F s1 →
      Held path X F (l.foldl
        (fun s2 x => if s2.st.panicked then s2 else runEnd changesStmt pick x.2 s2) s1) := by
    intro l
    induction l with
    | nil => intro s1 _ h1; exact h1
    | cons x rest ih =>
      intro s1 hl h1
      simp only [List.foldl_cons]
      apply ih _ (fun y hy => hl y (List.mem_cons_of_mem x hy))
      obtain ⟨hop, hg, hno, hnf, hF⟩ := h1
      rw [if_neg (by rw [hop.1]; simp)]
      obtain ⟨r1, r2, r3, r4, r5⟩ := runEnd_other changesStmt pick path x.2 s1 hacc hop
        (hl x (List.mem_cons_self x rest))
      exact ⟨r1, by rw [r2]; exact hg, r5 hno, by rw [noFlight, r4]; exact hnf,
        by rw [r3]; exact hF⟩
  obtain ⟨hop, hg, hno, hnf, hF⟩ := h
  unfold finishRuns
  apply hfold
  · intro x hx
    exact hnf x (List.mem_of_mem_filter hx)
  · exact ⟨hop, hg, hno, fun x hx => hnf x (List.mem_of_mem_filter hx), hF⟩

theorem finishRuns_Settled (changesStmt : Option ChangesStmt) (pick : Bool) (path : String)
    (F : List (Nat × event)) (s : Timed) (hacc : NeverFails changesStmt)
    (h : Settled path F s) : Settled path F (finishRuns changesStmt pick s) := by
  have hfold : ∀ (l : List (Nat × event)) (s1 : Timed), Settled path F s1 →
      Settled path F (l.foldl
        (fun s2 x => if s2.st.panicked then s2 else runEnd changesStmt pick x.2 s2) s1) := by
    intro l
    induction l with
    | nil => intro s1 h1; exact h1
    | cons x rest ih =>
      intro s1 h1
      simp only [List.foldl_cons]
      apply ih
      rw [if_neg (by rw [h1.1.1]; simp)]
      exact runEnd_Settled changesStmt pick path F x.2 s1 hacc h1
  unfold finishRuns
  apply hfold
  exact h

theorem expireEntry_Held_other (lat : Nat → Nat) (path q : String) (X : Option Timer)
    (F : List (Nat × event)) (s : Timed) (h : Held path X F s) (hq : q ≠ path) :
    Held path X F (expireEntry lat q s) := by
  obtain ⟨hop, hg, hno, hnf, hF⟩ := h
  obtain ⟨r1, r2, r3, r4, r5⟩ := expireEntry_other lat path q s hop hq
  exact ⟨r1, by rw [r2]; exact hg, by rw [noOrphan, r4]; exact hno, r5 hnf,
    by rw [r3]; exact hF⟩

theorem expireEntry_Held (lat : Nat → Nat) (path q : String) (X : Option Timer)
    (F : List (Nat × event)) (s : Timed) (h : Held path X F s)
    (hnd : ∀ t, X = some t → t.due s.st.now = false) :
    Held path X F (expireEntry lat q s) := by
  by_cases hq : q = path
  · obtain ⟨hop, hg, hno, hnf, hF⟩ := h
    subst hq
    cases X with
    | none =>
      rw [expireEntry_none lat q s hg]
      exact ⟨hop, hg, hno, hnf, hF⟩
    | some t =>
      rw [expireEntry_not_due lat q s t hg (hnd t rfl)]
      exact ⟨hop, hg, hno, hnf, hF⟩
  · exact expireEntry_Held_other lat path q X F s h hq

theorem expireEntry_Settled (lat : Nat → Nat) (path q : String) (F : List (Nat × event))
    (s : Timed) (h : Settled path F s) : Settled path F (expireEntry lat q s) := by
  obtain ⟨hop, hg, hno, hF⟩ := h
  by_cases hq : q = path
  · subst hq
    cases hgq : timersGet s.st.timers q with
    | none =>
      rw [expireEntry_none lat q s hgq]
      exact ⟨hop, hg, hno, hF⟩
    | some t =>
      rw [expireEntry_not_due lat q s t hgq (by simp [Timer.due, hg t hgq])]
      exact ⟨hop, hg, hno, hF⟩
  · obtain ⟨r1, r2, r3, r4, _⟩ := expireEntry_other lat path q s hop hq
    exact ⟨r1, by rw [r2]; exact hg, by rw [noOrphan, r4]; exact hno, by rw [r3]; exact hF⟩

theorem expireEntries_Held (lat : Nat → Nat) (path : String) (X : Option Timer)
    (F : List (Nat × event)) (s : Timed) (h : Held path X F s)
    (hnd : ∀ t, X = some t → t.due s.st.now = false) :
    Held path X F (expireEntries lat s) := by
  have hfold : ∀ (ks : List String) (s1 : Timed), Held path X F s1 → s1.st.now = s.st.now →
      Held path X F (ks.foldl (fun s2 q => expireEntry lat q s2) s1) := by
    intro ks
    induction ks with
    | nil => intro s1 h1 _; exact h1
    | cons q rest ih =>
      intro s1 h1 hn
      simp only [List.foldl_cons]
      apply ih
      · exact expireEntry_Held lat path q X F s1 h1 (by rw [hn]; exact hnd)
      · rw [expireEntry_now, hn]
  exact hfold _ s h rfl

theorem expireEntries_Settled (lat : Nat → Nat) (path : String) (F : List (Nat × event))
    (s : Timed) (h : Settled path F s) : Settled path F (expireEntries lat s) := by
  have hfold : ∀ (ks : List String) (s1 : Timed), Settled path F s1 →
      Settled path F (ks.foldl (fun s2 q => expireEntry lat q s2) s1) := by
    intro ks
    induction ks with
    | nil => intro s1 h1; exact h1
    | cons q rest ih =>
      intro s1 h1
      simp only [List.foldl_cons]
      exact ih _ (expireEntry_Settled lat path q F s1 h1)
  exact hfold _ s h

/-- At the deadline of the timer of the path, the expiry of the due timers makes
one call of `run` for the path, with the event of the timer, and leaves no timer
of the path armed. -/
theorem expireEntries_fire (lat : Nat → Nat) (path : String) (e : event) (d : Nat)
    (F : List (Nat × event)) (s : Timed)
    (h : Held path (some { e := e, deadline := some d }) F s) (hnow : s.st.now = d) :
    Settled path (F ++ [(d, e)]) (expireEntries lat s) := by
  have hfold : ∀ (ks : List String) (s1 : Timed), s1.st.now = d →
      ((Held path (some { e := e, deadline := some d }) F s1 ∧ path ∈ ks) ∨
        Settled path (F ++ [(d, e)]) s1) →
      Settled path (F ++ [(d, e)]) (ks.foldl (fun s2 q => expireEntry lat q s2) s1) := by
    intro ks
    induction ks with
    | nil =>
      intro s1 _ h1
      rcases h1 with ⟨_, hmem⟩ | h1
      · simp at hmem
      · exact h1
    | cons q rest ih =>
      intro s1 hn h1
      simp only [List.foldl_cons]
      apply ih _ (by rw [expireEntry_now, hn])
      rcases h1 with ⟨hh, hmem⟩ | h1
      · by_cases hq : q = path
        · subst hq
          right
          obtain ⟨hop, hg, hno, _, hF⟩ := hh
          obtain ⟨r1, r2, r3, r4⟩ := expireEntry_own_due lat q e d s1 hop hg (by omega)
          refine ⟨r1, ?_, by rw [noOrphan, r4]; exact hno, by rw [r3, hF, hn]⟩
          intro t ht
          rw [r2] at ht
          cases ht
          rfl
        · left
          refine ⟨expireEntry_Held_other lat path q _ F s1 hh hq, ?_⟩
          · rcases List.mem_cons.mp hmem with h2 | h2
            · exact absurd h2.symm hq
            · exact h2
      · right
        exact expireEntry_Settled lat path q _ s1 h1
  exact hfold _ s hnow (Or.inl ⟨h, timersGet_key_mem s.st.timers path _ h.2.1⟩)

theorem timedTick_Held (cfg : Target) (lat : Nat → Nat) (pick : Bool) (path : String)
    (X : Option Timer) (F : List (Nat × event)) (s : Timed)
    (hacc : NeverFails cfg.changesStmt) (h : Held path X F s)
    (hnd : ∀ t, X = some t → t.due (s.st.now + 1) = false) :
    Held path X F (timedTick cfg lat pick s) := by
  obtain ⟨hop, hg, hno, hnf, hF⟩ := h
  have h0 : Held path X F { s with st := { s.st with now := s.st.now + 1 } } :=
    ⟨hop, hg, hno, hnf, hF⟩
  have h1 := expireEntries_Held lat path X F _ h0 hnd
  obtain ⟨hop1, hg1, hno1, hnf1, hF1⟩ := h1
  obtain ⟨b1, b2, b3, b4, b5⟩ := expireOrphans_other lat path _ hno1
  exact finishRuns_Held cfg.changesStmt pick path X F _ hacc
    ⟨b1 hop1, by rw [b2]; exact hg1, b4, b5 hnf1, by rw [b3]; exact hF1⟩

theorem timedTick_Settled (cfg : Target) (lat : Nat → Nat) (pick : Bool) (path : String)
    (F : List (Nat × event)) (s : Timed) (hacc : NeverFails cfg.changesStmt)
    (h : Settled path F s) : Settled path F (timedTick cfg lat pick s) := by
  obtain ⟨hop, hg, hno, hF⟩ := h
  have h0 : Settled path F { s with st := { s.st with now := s.st.now + 1 } } :=
    ⟨hop, hg, hno, hF⟩
  obtain ⟨hop1, hg1, hno1, hF1⟩ := expireEntries_Settled lat path F _ h0
  obtain ⟨b1, b2, b3, b4, _⟩ := expireOrphans_other lat path _ hno1
  exact finishRuns_Settled cfg.changesStmt pick path F _ hacc
    ⟨b1 hop1, by rw [b2]; exact hg1, b4, by rw [b3]; exact hF1⟩

theorem timedTick_fire (cfg : Target) (lat : Nat → Nat) (pick : Bool) (path : String)
    (e : event) (d : Nat) (F : List (Nat × event)) (s : Timed)
    (hacc : NeverFails cfg.changesStmt)
    (h : Held path (some { e := e, deadline := some d }) F s) (heq : s.st.now + 1 = d) :
    Settled path (F ++ [(d, e)]) (timedTick cfg lat pick s) := by
  obtain ⟨hop, hg, hno, hnf, hF⟩ := h
  have h0 : Held path (some { e := e, deadline := some d }) F
      { s with st := { s.st with now := s.st.now + 1 } } := ⟨hop, hg, hno, hnf, hF⟩
  obtain ⟨hop1, hg1, hno1, hF1⟩ := expireEntries_fire lat path e d F _ h0 heq
  obtain ⟨b1, b2, b3, b4, _⟩ := expireOrphans_other lat path _ hno1
  exact finishRuns_Settled cfg.changesStmt pick path _ _ hacc
    ⟨b1 hop1, by rw [b2]; exact hg1, b4, by rw [b3]; exact hF1⟩

theorem timedAdvance_Settled (cfg : Target) (lat : Nat → Nat) (pick : Bool) (path : String)
    (F : List (Nat × event)) (hacc : NeverFails cfg.changesStmt) (n : Nat) (s : Timed)
    (h : Settled path F s) : Settled path F (timedAdvance cfg lat pick n s) := by
  induction n generalizing s with
  | zero => exact h
  | succ n ih => exact ih _ (timedTick_Settled cfg lat pick path F s hacc h)

theorem timedAdvance_Held_none (cfg : Target) (lat : Nat → Nat) (pick : Bool) (path : String)
    (F : List (Nat × event)) (hacc : NeverFails cfg.changesStmt) (n : Nat) (s : Timed)
    (h : Held path none F s) : Held path none F (timedAdvance cfg lat pick n s) := by
  induction n generalizing s with
  | zero => exact h
  | succ n ih =>
    exact ih _ (timedTick_Held cfg lat pick path none F s hacc h (fun t ht => by cases ht))

theorem timedAdvance_Held_armed (cfg : Target) (lat : Nat → Nat) (pick : Bool) (path : String)
    (e : event) (d : Nat) (F : List (Nat × event)) (hacc : NeverFails cfg.changesStmt)
    (n : Nat) (s : Timed) (h : Held path (some { e := e, deadline := some d }) F s)
    (hlt : s.st.now + n < d) :
    Held path (some { e := e, deadline := some d }) F (timedAdvance cfg lat pick n s) := by
  induction n generalizing s with
  | zero => exact h
  | succ n ih =>
    apply ih
    · apply timedTick_Held cfg lat pick path _ F s hacc h
      intro t ht
      cases ht
      have : ¬ d ≤ s.st.now + 1 := by omega
      simp [Timer.due, this]
    · rw [timedTick_now]
      omega

theorem timedAdvance_fire (cfg : Target) (lat : Nat → Nat) (pick : Bool) (path : String)
    (e : event) (d : Nat) (F : List (Nat × event)) (hacc : NeverFails cfg.changesStmt)
    (n : Nat) (s : Timed) (h : Held path (some { e := e, deadline := some d }) F s)
    (hnow : s.st.now < d) (hge : d ≤ s.st.now + n) :
    Settled path (F ++ [(d, e)]) (timedAdvance cfg lat pick n s) := by
  induction n generalizing s with
  | zero => omega
  | succ n ih =>
    by_cases hlt : s.st.now + 1 < d
    · apply ih
      · apply timedTick_Held cfg lat pick path _ F s hacc h
        intro t ht
        cases ht
        have : ¬ d ≤ s.st.now + 1 := by omega
        simp [Timer.due, this]
      · rw [timedTick_now]
        exact hlt
      · rw [timedTick_now]
        omega
    · have heq : s.st.now + 1 = d := by omega
      exact timedAdvance_Settled cfg lat pick path _ hacc n _
        (timedTick_fire cfg lat pick path e d F s hacc h heq)

/-- What the loop does to `timers` for an event that is not an attribute change:
the timer of the path of the event is armed for `cooldownTime` from now, and it
calls `run` with the event of the timer that was registered, or with this event
when none was; the registry stays well formed and no other path is touched. -/
theorem handleEvent_arms (fe : FsEvent) (st : State)
    (hk : (parseEvent fe).kind ≠ eventKind.chmod) (hwf : WF st.timers) :
    WF (handleEvent fe st).timers ∧
      (∀ p, p ≠ fe.Name → timersGet (handleEvent fe st).timers p = timersGet st.timers p) ∧
      timersGet (handleEvent fe st).timers fe.Name =
        some { e := (match timersGet st.timers fe.Name with
                     | some t => t.e
                     | none => parseEvent fe),
               deadline := some (st.now + cooldownTime) } := by
  have hpath : (parseEvent fe).path = fe.Name := parseEvent_path fe
  unfold handleEvent
  simp only [hk, if_false, hpath]
  cases hg : timersGet st.timers fe.Name with
  | none =>
    simp only []
    refine ⟨WF_set _ _ _ (WF_set _ _ _ hwf hpath) hpath, ?_, ?_⟩
    · intro p hp
      rw [timersGet_set_other _ _ _ _ hp, timersGet_set_other _ _ _ _ hp]
    · rw [timersGet_set_same]
      rfl
  | some t =>
    simp only []
    have htp : t.e.path = fe.Name := hwf (fe.Name, t) (timersGet_mem _ _ _ hg)
    refine ⟨WF_set _ _ _ hwf htp, ?_, ?_⟩
    · intro p hp
      rw [timersGet_set_other _ _ _ _ hp]
    · rw [timersGet_set_same]
      rfl

theorem handleEvent_Operating (path : String) (fe : FsEvent) (st : State)
    (hop : Operating st) :
    Operating (handleEvent fe st) ∧ firedFor path (handleEvent fe st) = firedFor path st ∧
      (handleEvent fe st).now = st.now := by
  obtain ⟨hp, hl, he, hc, hwf⟩ := hop
  by_cases hk : (parseEvent fe).kind = eventKind.chmod
  · have : handleEvent fe st = st := by simp [handleEvent, hk]
    rw [this]
    exact ⟨⟨hp, hl, he, hc, hwf⟩, rfl, rfl⟩
  · have hw := (handleEvent_arms fe st hk hwf).1
    rw [handleEvent_frame] at hw ⊢
    exact ⟨⟨hp, hl, he, hc, hw⟩, rfl, rfl⟩

theorem handle_other (path : String) (x : Nat × FsEvent) (s : Timed)
    (hx : isOn path x = false) (hop : Operating s.st) :
    timersGet (handleEvent x.2 s.st).timers path = timersGet s.st.timers path := by
  by_cases hk : (parseEvent x.2).kind = eventKind.chmod
  · have : handleEvent x.2 s.st = s.st := by simp [handleEvent, hk]
    rw [this]
  · have hne : path ≠ x.2.Name := by
      intro h
      simp [isOn, hk, h] at hx
    exact (handleEvent_arms x.2 s.st hk hop.2.2.2.2).2.1 path hne

theorem handle_other_Held (path : String) (X : Option Timer) (F : List (Nat × event))
    (x : Nat × FsEvent) (s : Timed) (hx : isOn path x = false) (h : Held path X F s) :
    Held path X F { s with st := handleEvent x.2 s.st } := by
  obtain ⟨hop, hg, hno, hnf, hF⟩ := h
  obtain ⟨r1, r2, _⟩ := handleEvent_Operating path x.2 s.st hop
  exact ⟨r1, by rw [handle_other path x s hx hop]; exact hg, hno, hnf, by rw [r2]; exact hF⟩

theorem handle_other_Settled (path : String) (F : List (Nat × event))
    (x : Nat × FsEvent) (s : Timed) (hx : isOn path x = false) (h : Settled path F s) :
    Settled path F { s with st := handleEvent x.2 s.st } := by
  obtain ⟨hop, hg, hno, hF⟩ := h
  obtain ⟨r1, r2, _⟩ := handleEvent_Operating path x.2 s.st hop
  refine ⟨r1, ?_, hno, by rw [r2]; exact hF⟩
  intro t ht
  rw [handle_other path x s hx hop] at ht
  exact hg t ht

theorem handle_own_new (path : String) (F : List (Nat × event))
    (x : Nat × FsEvent) (s : Timed) (hx : isOn path x = true) (h : Held path none F s) :
    Held path (some { e := parseEvent x.2, deadline := some (s.st.now + cooldownTime) }) F
      { s with st := handleEvent x.2 s.st } := by
  obtain ⟨hop, hg, hno, hnf, hF⟩ := h
  simp only [isOn, Bool.and_eq_true, decide_eq_true_eq] at hx
  obtain ⟨hn, hk⟩ := hx
  obtain ⟨r1, r2, _⟩ := handleEvent_Operating path x.2 s.st hop
  refine ⟨r1, ?_, hno, hnf, by rw [r2]; exact hF⟩
  have h3 := (handleEvent_arms x.2 s.st hk hop.2.2.2.2).2.2
  rw [hn, hg] at h3
  exact h3

theorem handle_own_reset (path : String) (t : Timer) (F : List (Nat × event))
    (x : Nat × FsEvent) (s : Timed) (hx : isOn path x = true) (h : Held path (some t) F s) :
    Held path (some { e := t.e, deadline := some (s.st.now + cooldownTime) }) F
      { s with st := handleEvent x.2 s.st } := by
  obtain ⟨hop, hg, hno, hnf, hF⟩ := h
  simp only [isOn, Bool.and_eq_true, decide_eq_true_eq] at hx
  obtain ⟨hn, hk⟩ := hx
  obtain ⟨r1, r2, _⟩ := handleEvent_Operating path x.2 s.st hop
  refine ⟨r1, ?_, hno, hnf, by rw [r2]; exact hF⟩
  have h3 := (handleEvent_arms x.2 s.st hk hop.2.2.2.2).2.2
  rw [hn, hg] at h3
  exact h3

theorem timedDeliver_operating (cfg : Target) (lat : Nat → Nat) (pick : Bool) (s : Timed)
    (x : Nat × FsEvent) (hop : Operating (timedAdvanceTo cfg lat pick x.1 s).st) :
    timedDeliver cfg lat pick s x =
      { timedAdvanceTo cfg lat pick x.1 s with
        st := handleEvent x.2 (timedAdvanceTo cfg lat pick x.1 s).st } := by
  unfold timedDeliver
  simp only [hop.1, hop.2.1]
  rfl

theorem timedAdvanceTo_now (cfg : Target) (lat : Nat → Nat) (pick : Bool) (t : Nat)
    (s : Timed) (h : s.st.now ≤ t) : (timedAdvanceTo cfg lat pick t s).st.now = t := by
  unfold timedAdvanceTo
  rw [timedAdvance_now]
  omega

theorem sortedFrom_mem (evs : List (Nat × FsEvent)) (t : Nat) (h : sortedFrom t evs = true) :
    ∀ y ∈ evs, t ≤ y.1 := by
  induction evs generalizing t with
  | nil => intro y hy; cases hy
  | cons x rest ih =>
    simp only [sortedFrom, Bool.and_eq_true, decide_eq_true_eq] at h
    intro y hy
    rcases List.mem_cons.mp hy with rfl | hy
    · exact h.1
    · exact Nat.le_trans h.1 (ih x.1 h.2 y hy)

theorem timedDeliver_Settled (cfg : Target) (lat : Nat → Nat) (pick : Bool) (path : String)
    (F : List (Nat × event)) (hacc : NeverFails cfg.changesStmt) (s : Timed)
    (x : Nat × FsEvent) (hx : isOn path x = false) (h : Settled path F s) :
    Settled path F (timedDeliver cfg lat pick s x) := by
  have h1 : Settled path F (timedAdvanceTo cfg lat pick x.1 s) :=
    timedAdvance_Settled cfg lat pick path F hacc _ s h
  rw [timedDeliver_operating cfg lat pick s x h1.1]
  exact handle_other_Settled path F x _ hx h1

theorem timedSimulate_cons (cfg : Target) (lat : Nat → Nat) (pick : Bool) (s : Timed)
    (x : Nat × FsEvent) (evs : List (Nat × FsEvent)) (tEnd : Nat) :
    timedSimulate cfg lat pick s (x :: evs) tEnd =
      timedSimulate cfg lat pick (timedDeliver cfg lat pick s x) evs tEnd := rfl

theorem timedSimulate_Settled (cfg : Target) (lat : Nat → Nat) (pick : Bool) (path : String)
    (F : List (Nat × event)) (hacc : NeverFails cfg.changesStmt) (tEnd : Nat)
    (evs : List (Nat × FsEvent)) (s : Timed) (hx : ∀ x ∈ evs, isOn path x = false)
    (h : Settled path F s) : Settled path F (timedSimulate cfg lat pick s evs tEnd) := by
  induction evs generalizing s with
  | nil => exact timedAdvance_Settled cfg lat pick path F hacc _ s h
  | cons x rest ih =>
    rw [timedSimulate_cons]
    exact ih _ (fun y hy => hx y (List.mem_cons_of_mem _ hy))
      (timedDeliver_Settled cfg lat pick path F hacc s x (hx x (List.mem_cons_self _ _)) h)

/-- A burst under way: the timer of the path is armed for the quiet interval after
the latest event of the burst (at `tp`), and nothing else is left of the path. The
events still to come continue the burst on the path, with events of other paths
among them. Then the timer fires once, the quiet interval after the last event of
the burst, with the event the timer was created with. -/
theorem timedSimulate_burst (cfg : Target) (lat : Nat → Nat) (pick : Bool) (path : String)
    (e : event) (F : List (Nat × event)) (hacc : NeverFails cfg.changesStmt) (tEnd : Nat)
    (evs : List (Nat × FsEvent)) (s : Timed) (tp : Nat)
    (h : Held path (some { e := e, deadline := some (tp + cooldownTime) }) F s)
    (hlo : tp ≤ s.st.now) (hhi : s.st.now < tp + cooldownTime)
    (hsorted : sortedFrom s.st.now evs = true)
    (hb : burstFrom path tp (evs.filter (isOn path)) = true)
    (hend : lastTime tp (evs.filter (isOn path)) + cooldownTime ≤ tEnd) :
    Settled path (F ++ [(lastTime tp (evs.filter (isOn path)) + cooldownTime, e)])
      (timedSimulate cfg lat pick s evs tEnd) := by
  induction evs generalizing s tp with
  | nil =>
    simp only [List.filter_nil, lastTime] at hend ⊢
    show Settled _ _ (timedAdvance cfg lat pick (tEnd - s.st.now) s)
    exact timedAdvance_fire cfg lat pick path e _ F hacc _ s h hhi (by omega)
  | cons x rest ih =>
    rw [timedSimulate_cons]
    simp only [sortedFrom, Bool.and_eq_true, decide_eq_true_eq] at hsorted
    obtain ⟨hnx, hsr⟩ := hsorted
    have hnow : (timedAdvanceTo cfg lat pick x.1 s).st.now = x.1 :=
      timedAdvanceTo_now cfg lat pick x.1 s hnx
    cases hon : isOn path x with
    | true =>
      rw [List.filter_cons_of_pos hon] at hb hend ⊢
      simp only [burstFrom, Bool.and_eq_true, decide_eq_true_eq] at hb
      obtain ⟨⟨⟨⟨_, _⟩, hle⟩, hlt⟩, hb2⟩ := hb
      simp only [lastTime] at hend ⊢
      have h1 : Held path (some { e := e, deadline := some (tp + cooldownTime) }) F
          (timedAdvanceTo cfg lat pick x.1 s) :=
        timedAdvance_Held_armed cfg lat pick path e _ F hacc _ s h (by omega)
      have h2 := handle_own_reset path _ F x _ hon h1
      rw [hnow] at h2
      rw [timedDeliver_operating cfg lat pick s x h1.1]
      exact ih _ x.1 h2 (by show _ ≤ (handleEvent _ _).now
                            rw [(handleEvent_Operating path x.2 _ h1.1).2.2, hnow])
        (by show (handleEvent _ _).now < _
            rw [(handleEvent_Operating path x.2 _ h1.1).2.2, hnow]
            simp [cooldownTime])
        (by show sortedFrom (handleEvent _ _).now rest = true
            rw [(handleEvent_Operating path x.2 _ h1.1).2.2, hnow]
            exact hsr)
        hb2 hend
    | false =>
      rw [List.filter_cons_of_neg (by simp [hon])] at hb hend ⊢
      by_cases hlt : x.1 < tp + cooldownTime
      · have h1 : Held path (some { e := e, deadline := some (tp + cooldownTime) }) F
            (timedAdvanceTo cfg lat pick x.1 s) :=
          timedAdvance_Held_armed cfg lat pick path e _ F hacc _ s h (by omega)
        have h2 := handle_other_Held path _ F x _ hon h1
        rw [timedDeliver_operating cfg lat pick s x h1.1]
        exact ih _ tp h2
          (by show _ ≤ (handleEvent _ _).now
              rw [(handleEvent_Operating path x.2 _ h1.1).2.2, hnow]
              omega)
          (by show (handleEvent _ _).now < _
              rw [(handleEvent_Operating path x.2 _ h1.1).2.2, hnow]
              exact hlt)
          (by show sortedFrom (handleEvent _ _).now rest = true
              rw [(handleEvent_Operating path x.2 _ h1.1).2.2, hnow]
              exact hsr)
          hb hend
      · have hmem := sortedFrom_mem rest x.1 hsr
        by_cases hf : rest.filter (isOn path) = []
        · rw [hf] at hend ⊢
          simp only [lastTime] at hend ⊢
          have h1 : Settled path (F ++ [(tp + cooldownTime, e)])
              (timedAdvanceTo cfg lat pick x.1 s) :=
            timedAdvance_fire cfg lat pick path e _ F hacc _ s h hhi (by omega)
          apply timedSimulate_Settled cfg lat pick path _ hacc tEnd rest
          · intro y hy
            cases hy2 : isOn path y with
            | false => rfl
            | true =>
              have : y ∈ rest.filter (isOn path) := List.mem_filter.mpr ⟨hy, hy2⟩
              rw [hf] at this
              cases this
          · rw [timedDeliver_operating cfg lat pick s x h1.1]
            exact handle_other_Settled path _ x _ hon h1
        · exfalso
          obtain ⟨y, more, hym⟩ := List.exists_cons_of_ne_nil hf
          have hy : y ∈ rest :=
            (List.mem_filter.mp (by rw [hym]; exact List.mem_cons_self _ _)).1
          rw [hym] at hb
          simp only [burstFrom, Bool.and_eq_true, decide_eq_true_eq] at hb
          have := hmem y hy
          omega

/-- A burst that starts when nothing is left of earlier events on the path: the
timer of the path fires once, the quiet interval after the last event of the burst,
with the event that started the burst. -/
theorem timedSimulate_quiet (cfg : Target) (lat : Nat → Nat) (pick : Bool) (path : String)
    (F : List (Nat × event)) (hacc : NeverFails cfg.changesStmt) (tEnd : Nat)
    (first : Nat × FsEvent) (more : List (Nat × FsEvent))
    (evs : List (Nat × FsEvent)) (s : Timed)
    (h : Held path none F s) (hsorted : sortedFrom s.st.now evs = true)
    (hp : evs.filter (isOn path) = first :: more)
    (hb : burstFrom path first.1 more = true)
    (hend : lastTime first.1 more + cooldownTime ≤ tEnd) :
    Settled path (F ++ [(lastTime first.1 more + cooldownTime, parseEvent first.2)])
      (timedSimulate cfg lat pick s evs tEnd) := by
  induction evs generalizing s with
  | nil => simp at hp
  | cons x rest ih =>
    rw [timedSimulate_cons]
    simp only [sortedFrom, Bool.and_eq_true, decide_eq_true_eq] at hsorted
    obtain ⟨hnx, hsr⟩ := hsorted
    have hnow : (timedAdvanceTo cfg lat pick x.1 s).st.now = x.1 :=
      timedAdvanceTo_now cfg lat pick x.1 s hnx
    have h1 : Held path none F (timedAdvanceTo cfg lat pick x.1 s) :=
      timedAdvance_Held_none cfg lat pick path F hacc _ s h
    rw [timedDeliver_operating cfg lat pick s x h1.1]
    have hn2 := (handleEvent_Operating path x.2 _ h1.1).2.2
    cases hon : isOn path x with
    | true =>
      rw [List.filter_cons_of_pos hon] at hp
      injection hp with hx hr
      subst hx
      subst hr
      have h2 := handle_own_new path F x _ hon h1
      rw [hnow] at h2
      exact timedSimulate_burst cfg lat pick path _ F hacc tEnd rest _ x.1 h2
        (by show _ ≤ (handleEvent _ _).now
            rw [hn2, hnow])
        (by show (handleEvent _ _).now < _
            rw [hn2, hnow]
            simp [cooldownTime])
        (by show sortedFrom (handleEvent _ _).now rest = true
            rw [hn2, hnow]
            exact hsr)
        hb hend
    | false =>
      rw [List.filter_cons_of_neg (by simp [hon])] at hp
      exact ih _ (handle_other_Held path _ F x _ hon h1)
        (by show sortedFrom (handleEvent _ _).now rest = true
            rw [hn2, hnow]
            exact hsr)
        hp

theorem timedAdvance_add (cfg : Target) (lat : Nat → Nat) (pick : Bool) (m n : Nat)
    (s : Timed) :
    timedAdvance cfg lat pick (m + n) s =
      timedAdvance cfg lat pick n (timedAdvance cfg lat pick m s) := by
  induction m generalizing s with
  | zero => simp [timedAdvance]
  | succ m ih =>
    rw [Nat.succ_add]
    exact ih (timedTick cfg lat pick s)

theorem timedAdvanceTo_advanced (cfg : Target) (lat : Nat → Nat) (pick : Bool) (t1 t2 : Nat)
    (s : Timed) (h1 : s.st.now ≤ t1) (h2 : t1 ≤ t2) :
    timedAdvanceTo cfg lat pick t2 (timedAdvanceTo cfg lat pick t1 s) =
      timedAdvanceTo cfg lat pick t2 s := by
  unfold timedAdvanceTo
  rw [timedAdvance_now, ← timedAdvance_add]
  congr 1
  omega

theorem timedDeliver_advanced (cfg : Target) (lat : Nat → Nat) (pick : Bool) (t : Nat)
    (s : Timed) (x : Nat × FsEvent) (h1 : s.st.now ≤ t) (h2 : t ≤ x.1) :
    timedDeliver cfg lat pick (timedAdvanceTo cfg lat pick t s) x =
      timedDeliver cfg lat pick s x := by
  unfold timedDeliver
  rw [timedAdvanceTo_advanced cfg lat pick t x.1 s h1 h2]

theorem NeverFails_loggingTarget : NeverFails loggingTarget.changesStmt := by
  intro Exec h n path kind
  have h2 : (fun _ _ _ => false) = Exec := Option.some.inj h
  rw [← h2]

theorem Quiet_timedStart (path : String) : Quiet path timedStart := by
  refine ⟨rfl, ?_, ?_⟩
  · intro t ht
    cases ht
  · intro x hx
    cases hx

/-- The three creations of `threeFiles` on a target that records changes, with an
`Exec` of 60 ms: 600 ms after the first creation the state is `filesEnd`. -/
theorem threeFiles_run :
    timedSimulate loggingTarget slowExec true timedStart threeFiles 600 = filesEnd := by
  have h1 : timedDeliver loggingTarget slowExec true timedStart
      (0, { Name := "/w/file.txt", Op := Op.Create }) = filesAfterFirst := by decide
  have h2 : timedAdvanceTo loggingTarget slowExec true 130 filesAfterFirst =
      filesFirstFired := by decide
  have h3 : timedDeliver loggingTarget slowExec true filesFirstFired
      (200, { Name := "/w/file.go", Op := Op.Create }) = filesAfterSecond := by decide
  have h4 : timedAdvanceTo loggingTarget slowExec true 330 filesAfterSecond =
      filesSecondFired := by decide
  have h5 : timedDeliver loggingTarget slowExec true filesSecondFired
      (400, { Name := "/w/file_test.go", Op := Op.Create }) = filesAfterThird := by decide
  have h6 : timedAdvanceTo loggingTarget slowExec true 530 filesAfterThird =
      filesThirdFired := by decide
  have h7 : timedAdvanceTo loggingTarget slowExec true 600 filesThirdFired = filesEnd := by
    decide
  have g3 : timedDeliver loggingTarget slowExec true filesAfterFirst
      (200, { Name := "/w/file.go", Op := Op.Create }) = filesAfterSecond := by
    rw [← h3, ← h2]
    exact (timedDeliver_advanced loggingTarget slowExec true 130 filesAfterFirst _
      (by decide) (by decide)).symm
  have g5 : timedDeliver loggingTarget slowExec true filesAfterSecond
      (400, { Name := "/w/file_test.go", Op := Op.Create }) = filesAfterThird := by
    rw [← h5, ← h4]
    exact (timedDeliver_advanced loggingTarget slowExec true 330 filesAfterSecond _
      (by decide) (by decide)).symm
  have g7 : timedAdvanceTo loggingTarget slowExec true 600 filesAfterThird = filesEnd := by
    rw [← h7, ← h6]
    exact (timedAdvanceTo_advanced loggingTarget slowExec true 530 600 filesAfterThird
      (by decide) (by decide)).symm
  simp only [timedSimulate, threeFiles, List.foldl_cons, List.foldl_nil, h1, g3, g5, g7]

/-! ## The claims -/

/-- C5: in a run of `runCommands` that no command-logger error aborts (every
run without a command logger is such a run, last conjunct), the commands executed
are, in declared order, the commands up to and including the first one whose
execution fails (all of them if none fails), and the bytes written to the log
sink are exactly the concatenation, in order, of the combined outputs of those
commands; no later command is executed or contributes output. -/
theorem runCommands_stops_at_first_failure (env : RunEnv)
    (commandsStmt : Option CommandsStmt) (cmds : List String)
    (h : (runCommands env cmds commandsStmt).panicked = false) :
    executed (runCommands env cmds commandsStmt).trace =
        (cmds.enum.take (firstFailure env cmds + 1)).map
          (fun x => parseCommand env.lib x.2) ∧
      written (runCommands env cmds commandsStmt).trace =
        concatAll ((cmds.enum.take (firstFailure env cmds + 1)).map
          fun x => (env.CombinedOutput x.1 (parseCommand env.lib x.2)).1) ∧
      (runCommands env cmds none).panicked = false :=
  ⟨(runCommandsFrom_no_panic env commandsStmt cmds 0 h).1,
    (runCommandsFrom_no_panic env commandsStmt cmds 0 h).2,
    runCommandsFrom_none_no_panic env cmds 0⟩

/-- Witness for C5: the failing-command case of `TestMultipleCommands`. -/
theorem runCommands_stops_at_first_failure_witness :
    (runCommands sampleEnv ["echo hello world", "exit 1", "echo goodbye world"] none).panicked
        = false ∧
      written (runCommands sampleEnv ["echo hello world", "exit 1", "echo goodbye world"]
        none).trace = "hello world\n" :=
  ⟨by decide,
    (runCommands_stops_at_first_failure sampleEnv none
      ["echo hello world", "exit 1", "echo goodbye world"] (by decide)).2.1.trans (by decide)⟩

/-- C8: with a command logger, the trace of `runCommands` is one block per
command, in declared order, each block being the record call, then the execution,
then the write of the output; the blocks end with the first command that the
logger rejects or whose execution fails. The texts recorded are those of the
commands up to and including that command and of no later one. When the logger
returns an error for a command, `runCommands` panics, and neither that command
nor a later one is executed; when it returns none up to the first failing
command, `runCommands` does not panic. Every recorded text ends with the command
as configured, provided a successful lookup returns a path that ends with the
program name. -/
theorem runCommands_records_before_executing (env : RunEnv) (Exec : CommandsStmt)
    (cmds : List String)
    (hlook : ∀ name, env.lib.isBase name = true → (env.lib.LookPath name).2 = false →
      (env.lib.LookPath name).1 ≠ "" → ∃ pre, (env.lib.LookPath name).1 = pre ++ name) :
    (runCommands env cmds (some Exec)).trace =
        (cmds.enum.take (loggedStopIndex env Exec cmds)).flatMap (loggedBlock env) ++
          loggedLast env Exec cmds.enum[loggedStopIndex env Exec cmds]? ∧
      (runCommands env cmds (some Exec)).panicked =
        loggedPanics env Exec cmds.enum[loggedStopIndex env Exec cmds]? ∧
      recorded (runCommands env cmds (some Exec)).trace =
        (cmds.enum.take (loggedStopIndex env Exec cmds + 1)).map
          (fun x => (parseCommand env.lib x.2).String) ∧
      executed (runCommands env cmds (some Exec)).trace =
        (cmds.enum.take (if (runCommands env cmds (some Exec)).panicked
            then loggedStopIndex env Exec cmds
            else loggedStopIndex env Exec cmds + 1)).map
          (fun x => parseCommand env.lib x.2) ∧
      (∀ x, cmds.enum[loggedStopIndex env Exec cmds]? = some x →
        Exec x.1 (parseCommand env.lib x.2).String = true →
        (runCommands env cmds (some Exec)).panicked = true ∧
        executed (runCommands env cmds (some Exec)).trace =
          (cmds.enum.take (loggedStopIndex env Exec cmds)).map
            (fun x => parseCommand env.lib x.2)) ∧
      ((∀ x ∈ cmds.enum.take (loggedStopIndex env Exec cmds + 1),
          Exec x.1 (parseCommand env.lib x.2).String = false) →
        (runCommands env cmds (some Exec)).panicked = false) ∧
      (∀ cmdline ∈ cmds, ∃ pre, (parseCommand env.lib cmdline).String = pre ++ cmdline) := by
  obtain ⟨htrace, hpanic⟩ := runCommandsFrom_trace env (some Exec) cmds 0
  have hidx : (List.enumFrom 0 cmds).findIdx (stops env (some Exec)) =
      loggedStopIndex env Exec cmds := stopIndex_some env Exec cmds
  rw [hidx, block_some, lastPart_some] at htrace
  rw [hidx, panicsAt_some] at hpanic
  have htrace2 : (runCommands env cmds (some Exec)).trace =
      (cmds.enum.take (loggedStopIndex env Exec cmds)).flatMap (loggedBlock env) ++
        loggedLast env Exec cmds.enum[loggedStopIndex env Exec cmds]? := htrace
  have hpanic2 : (runCommands env cmds (some Exec)).panicked =
      loggedPanics env Exec cmds.enum[loggedStopIndex env Exec cmds]? := hpanic
  have hrecLast : ∀ x, recorded (loggedLast env Exec (some x)) =
      [(parseCommand env.lib x.2).String] := by
    intro x
    rw [← lastPart_some]
    exact recorded_lastPart env Exec x
  have hexLast : ∀ x, executed (loggedLast env Exec (some x)) =
      if loggedPanics env Exec (some x) then [] else [parseCommand env.lib x.2] := by
    intro x
    rw [← lastPart_some, ← panicsAt_some]
    exact executed_lastPart env (some Exec) x
  have hexec : executed (runCommands env cmds (some Exec)).trace =
      (cmds.enum.take (if (runCommands env cmds (some Exec)).panicked
          then loggedStopIndex env Exec cmds
          else loggedStopIndex env Exec cmds + 1)).map
        (fun x => parseCommand env.lib x.2) := by
    rw [hpanic2, htrace2, executed_append, ← block_some env Exec, executed_bind_block]
    cases hk : cmds.enum[loggedStopIndex env Exec cmds]? with
    | none =>
      have hlen : cmds.enum.length ≤ loggedStopIndex env Exec cmds := by
        simpa using hk
      simp only [loggedLast, loggedPanics, executed, List.filterMap_nil, List.append_nil,
        Bool.false_eq_true, if_false]
      rw [List.take_of_length_le hlen, List.take_of_length_le (Nat.le_succ_of_le hlen)]
    | some x =>
      rw [hexLast]
      by_cases hp : loggedPanics env Exec (some x) = true
      · simp [hp]
      · simp [hp, List.take_succ, hk]
  refine ⟨htrace2, hpanic2, ?_, hexec, ?_, ?_, ?_⟩
  · rw [htrace2, recorded_append, ← block_some env Exec, recorded_bind_block, List.take_succ]
    cases hk : cmds.enum[loggedStopIndex env Exec cmds]? with
    | none => simp [loggedLast, recorded]
    | some x => simp [hrecLast]
  · intro x hx hrej
    have hp : (runCommands env cmds (some Exec)).panicked = true := by
      rw [hpanic2, hx]
      exact hrej
    refine ⟨hp, ?_⟩
    rw [hexec, hp]
    rfl
  · intro hall
    rw [hpanic2]
    cases hk : cmds.enum[loggedStopIndex env Exec cmds]? with
    | none => rfl
    | some x =>
      have hmem : x ∈ cmds.enum.take (loggedStopIndex env Exec cmds + 1) := by
        rw [List.take_succ, hk]
        simp
      exact hall x hmem
  · intro cmdline _
    exact parseCommand_String_ends env.lib hlook cmdline

/-- Witness for C8: the two commands of `TestLogCommand`, with a logger that
returns an error for the second record: both texts are recorded, in order, the
first command alone is executed, and `runCommands` panics. -/
theorem runCommands_records_before_executing_witness :
    recorded (runCommands sampleEnv ["echo hello world", "echo goodbye void"]
        (some rejectSecond)).trace = ["/bin/echo hello world", "/bin/echo goodbye void"] ∧
      (runCommands sampleEnv ["echo hello world", "echo goodbye void"]
        (some rejectSecond)).panicked = true ∧
      executed (runCommands sampleEnv ["echo hello world", "echo goodbye void"]
        (some rejectSecond)).trace =
        [{ Path := "/bin/echo", Args := ["echo", "hello", "world"], Err := false }] :=
  have hlook : ∀ name, sampleEnv.lib.isBase name = true →
      (sampleEnv.lib.LookPath name).2 = false →
      (sampleEnv.lib.LookPath name).1 ≠ "" →
      ∃ pre, (sampleEnv.lib.LookPath name).1 = pre ++ name := by
    intro name _ herr _
    by_cases hn : name = "exit"
    · simp [sampleEnv, sampleLib, hn] at herr
    · exact ⟨"/bin/", by simp [sampleEnv, sampleLib, hn]⟩
  have h := runCommands_records_before_executing sampleEnv rejectSecond
    ["echo hello world", "echo goodbye void"] hlook
  ⟨h.2.2.1.trans (by decide), h.2.1.trans (by decide), h.2.2.2.1.trans (by decide)⟩

/-- C10: `validateTables(a, name1, name2)` returns `(ok1, ok2)` where `ok1` holds
exactly when some element of `a` equals `name1` under `strings.EqualFold`, and
`ok2` exactly when some element equals `name2`; each result is independent of the
other name and of the order of `a`, and both are false for the empty list. -/
theorem validateTables_spec (EqualFold : String → String → Bool) :
    (∀ a name1 name2,
      ((validateTables EqualFold a name1 name2).1 = true ↔
        ∃ s ∈ a, EqualFold s name1 = true) ∧
      ((validateTables EqualFold a name1 name2).2 = true ↔
        ∃ s ∈ a, EqualFold s name2 = true)) ∧
    (∀ a name1 name2 other,
      (validateTables EqualFold a name1 name2).1 = (validateTables EqualFold a name1 other).1 ∧
      (validateTables EqualFold a name1 name2).2 = (validateTables EqualFold a other name2).2) ∧
    (∀ a b name1 name2, List.Perm a b →
      validateTables EqualFold a name1 name2 = validateTables EqualFold b name1 name2) ∧
    (∀ name1 name2, validateTables EqualFold [] name1 name2 = (false, false)) := by
  refine ⟨?_, ?_, ?_, ?_⟩
  · intro a name1 name2
    simp [validateTables_eq_any]
  · intro a name1 name2 other
    simp [validateTables_eq_any]
  · intro a b name1 name2 hperm
    simp only [validateTables_eq_any, Prod.mk.injEq]
    constructor <;>
    · rw [Bool.eq_iff_iff]
      simp only [List.any_eq_true]
      constructor
      · rintro ⟨s, hs, h⟩
        exact ⟨s, hperm.mem_iff.mp hs, h⟩
      · rintro ⟨s, hs, h⟩
        exact ⟨s, hperm.mem_iff.mpr hs, h⟩
  · intro name1 name2
    rfl

/-- Witness for C10: the "both" case of `TestValidateTables`, on the list and on
a reordering of it. -/
theorem validateTables_spec_witness :
    validateTables asciiEqualFold
        ["some_table", "another_table", "yet_another_table", "you_guessed_it_another_table"]
        "yet_another_TABLE" "Some_Table" = (true, true) ∧
      validateTables asciiEqualFold
        ["another_table", "some_table", "yet_another_table", "you_guessed_it_another_table"]
        "yet_another_TABLE" "Some_Table" =
      validateTables asciiEqualFold
        ["some_table", "another_table", "yet_another_table", "you_guessed_it_another_table"]
        "yet_another_TABLE" "Some_Table" :=
  ⟨by decide,
    (validateTables_spec asciiEqualFold).2.2.1 _ _ "yet_another_TABLE" "Some_Table"
      (List.Perm.swap "some_table" "another_table" _)⟩

/-- C1: in every state that a watch target reaches, by any schedule of
notifications, timer fires, executor steps and stop steps, the executions of the
command sequence recorded so far follow one another (start, finish, start, ...),
so at no moment are two of them under way; an execution is under way exactly when
the executor is inside `runAndLogCommands`, and while it is there the executor
cannot receive the next request. No step other than the executor's receive and
its return from `runAndLogCommands` starts or ends an execution, writes to the
log sink or records a command. -/
theorem executions_never_overlap (cfg : Target) (acts : List Action) (st : State)
    (h : execActs cfg start acts = some st) :
    alternates false st.windows = true ∧
      (∀ n, 0 ≤ underWay (st.windows.take n) ∧ underWay (st.windows.take n) ≤ 1) ∧
      windowsEnd false st.windows = some (decide (st.xpc = ExecPc.running)) ∧
      (st.xpc = ExecPc.running → step cfg st Action.xRecv = none) ∧
      (∀ a st1, step cfg st a = some st1 → a ≠ Action.xRecv →
        (∀ env, a ≠ Action.xFinish env) →
        st1.windows = st.windows ∧ st1.sink = st.sink ∧ st1.cmdLog = st.cmdLog ∧
          st1.xpc = st.xpc) := by
  have hinv := Inv_execActs cfg acts start st Inv_start h
  have halt := alternates_of_windowsEnd false st.windows _ hinv.2.2.2
  refine ⟨halt, ?_, hinv.2.2.2, ?_, ?_⟩
  · intro n
    simpa using underWay_of_alternates false st.windows halt n
  · intro hr
    simp [step, hr]
  · intro a st1 hs h1 h2
    exact step_exec_frame cfg st st1 a hs h1 h2

/-- Witness for C1: one fired change and one execution of the sequence. -/
theorem executions_never_overlap_witness :
    execActs echoTarget start sampleSchedule = some sampleFinal ∧
      alternates false sampleFinal.windows = true :=
  have h : execActs echoTarget start sampleSchedule = some sampleFinal := by decide
  ⟨h, (executions_never_overlap echoTarget sampleSchedule sampleFinal h).1⟩

/-- C4: in every state that a watch target reaches the run slot `runCh` holds at
most one request; and when it holds one and no stop has been requested, every
call of `run`, one after the other, takes the `default` case of its `select`
(it does not send and does not block): the slot still holds exactly that one
request and the executor is where it was. -/
theorem slot_holds_at_most_one (cfg : Target) (acts : List Action) (st : State)
    (h : execActs cfg start acts = some st) :
    st.runCh.buf ≤ 1 ∧
      (st.runCh.buf = 1 → st.ch = false → ∀ fs : List (event × Bool),
        ∃ k, k ≤ fs.length ∧
          (runAll cfg fs st).runCh = st.runCh ∧
          (runAll cfg fs st).runCh.buf = 1 ∧
          (runAll cfg fs st).selects = st.selects ++ List.replicate k SelectCase.dflt ∧
          ((runAll cfg fs st).panicked = false → k = fs.length) ∧
          (runAll cfg fs st).xpc = st.xpc ∧
          (runAll cfg fs st).windows = st.windows) := by
  obtain ⟨h1, h2, h3, _⟩ := Inv_execActs cfg acts start st Inv_start h
  refine ⟨h1, ?_⟩
  intro hb hch fs
  have he : st.exitCh = false := by
    cases hx : st.exitCh with
    | false => rfl
    | true => rw [h2 hx] at hch; cases hch
  have hc : st.runCh.closed = false := by
    cases hx : st.runCh.closed with
    | false => rfl
    | true => rw [h3 hx] at he; cases he
  obtain ⟨k, hk, r1, r2, r3, r4, r5⟩ := runAll_occupied cfg fs st hb hc he
  exact ⟨k, hk, r1, by rw [r1]; exact hb, r2, r3, r4, r5⟩

/-- Witness for C4: with one request in the slot, two more fires leave it as it
is. -/
theorem slot_holds_at_most_one_witness :
    execActs plainTarget start occupiedSchedule = some occupiedState ∧
      occupiedState.runCh.buf = 1 ∧ occupiedState.ch = false ∧
      ∃ k, k ≤ 2 ∧
        (runAll plainTarget
          [({ path := "/w/f", kind := eventKind.write }, true),
            ({ path := "/w/g", kind := eventKind.create }, false)] occupiedState).runCh.buf
          = 1 :=
  have h : execActs plainTarget start occupiedSchedule = some occupiedState := by decide
  ⟨h, rfl, rfl,
    ((slot_holds_at_most_one plainTarget occupiedSchedule occupiedState h).2 rfl rfl
      [({ path := "/w/f", kind := eventKind.write }, true),
        ({ path := "/w/g", kind := eventKind.create }, false)]).imp
      fun _ hk => ⟨hk.1, hk.2.2.1⟩⟩

/-- C6 (what the code does): from a state in which no timer is registered, the
slot holds at most one request and the loop of `watch` is still looping, no
schedule without a further notification lets the stop case complete. Whatever
is interleaved (the stop signal, the stop case, time passing, the executor
receiving and finishing), the loop never gets past its second `<-runCh`, the
provider is never closed, `runCh` is never closed and the executor never leaves
its loop. -/
theorem stop_never_completes_without_fire (cfg : Target) (st0 : State)
    (ht : st0.timers = []) (hc : st0.runCh.closed = false) (hb : st0.runCh.buf ≤ 1)
    (hf : st0.fw = false) (hx : st0.xpc ≠ ExecPc.exited) (hl : st0.hpc = HandlerPc.looping)
    (acts : List Action) (hno : ∀ a ∈ acts, a.isNotify = false) (st : State)
    (h : execActs cfg st0 acts = some st) :
    st.hpc ≠ HandlerPc.closing ∧ st.hpc ≠ HandlerPc.returned ∧ st.fw = false ∧
      st.runCh.closed = false ∧ st.xpc ≠ ExecPc.exited := by
  have hs : Stuck st0 := ⟨ht, hc, hf, hx, Or.inl ⟨Or.inl hl, hb⟩⟩
  obtain ⟨_, r2, r3, r4, r5⟩ := Stuck_execActs cfg acts st0 st hs hno h
  refine ⟨?_, ?_, r3, r2, r4⟩
  · intro hcl
    rcases r5 with ⟨h1 | h1, _⟩ | ⟨h1, _⟩ <;> rw [hcl] at h1 <;> cases h1
  · intro hcl
    rcases r5 with ⟨h1 | h1, _⟩ | ⟨h1, _⟩ <;> rw [hcl] at h1 <;> cases h1

/-- Witness for C6: a freshly started target is told to stop and no change event
ever fires; the loop waits at its first `<-runCh` and the receive cannot be
taken. -/
theorem stop_never_completes_without_fire_witness :
    execActs plainTarget start stopSchedule = some stopState ∧
      stopState.hpc = HandlerPc.firstRecv ∧ stopState.fw = false ∧
      step plainTarget stopState Action.hRecv = none ∧
      step plainTarget stopState Action.xRecv = none ∧
      stopState.hpc ≠ HandlerPc.returned :=
  have h : execActs plainTarget start stopSchedule = some stopState := by decide
  ⟨h, rfl, rfl, by decide, by decide,
    (stop_never_completes_without_fire plainTarget start rfl rfl (by decide) rfl (by decide) rfl
      stopSchedule (by decide) stopState h).2.1⟩

/-- C9: `parseEvent` keeps the path of the notification and derives one kind from
its op flags: write if the write flag is set, else create, else remove, else
rename, else attribute change (`chmod`). The loop of `watch` discards every event
of kind `chmod`: handling it leaves the whole state as it is (no timer created or
reset), also as a step of the loop among the other goroutines; delivering it is
the same as letting time pass, and a target that
receives only such events never registers a timer, never calls `run`, never
records a change and never sends a request. -/
theorem chmod_events_are_discarded :
    (∀ fe : FsEvent, (parseEvent fe).path = fe.Name ∧
      (parseEvent fe).kind =
        if Op.Has fe.Op Op.Write then eventKind.write
        else if Op.Has fe.Op Op.Create then eventKind.create
        else if Op.Has fe.Op Op.Remove then eventKind.remove
        else if Op.Has fe.Op Op.Rename then eventKind.rename
        else eventKind.chmod) ∧
    (∀ (fe : FsEvent) (st : State), (parseEvent fe).kind = eventKind.chmod →
      handleEvent fe st = st) ∧
    (∀ (cfg : Target) (st : State) (fe : FsEvent),
      (parseEvent fe).kind = eventKind.chmod → st.panicked = false →
      st.hpc = HandlerPc.looping → step cfg st (Action.notify fe) = some st) ∧
    (∀ (cfg : Target) (pick : Bool) (st : State) (x : Nat × FsEvent),
      (parseEvent x.2).kind = eventKind.chmod →
      deliver cfg pick st x = advanceTo cfg pick x.1 st) ∧
    (∀ (cfg : Target) (pick : Bool) (evs : List (Nat × FsEvent)) (tEnd : Nat),
      (∀ x ∈ evs, (parseEvent x.2).kind = eventKind.chmod) →
      (simulate cfg pick start evs tEnd).timers = [] ∧
      (simulate cfg pick start evs tEnd).fired = [] ∧
      (simulate cfg pick start evs tEnd).changes = [] ∧
      (simulate cfg pick start evs tEnd).selects = [] ∧
      (simulate cfg pick start evs tEnd).runCh = start.runCh) := by
  refine ⟨?_, ?_, ?_, ?_, ?_⟩
  · intro fe
    refine ⟨parseEvent_path fe, ?_⟩
    unfold parseEvent
    simp only []
    split_ifs <;> rfl
  · intro fe st hk
    simp [handleEvent, hk]
  · intro cfg st fe hk hp hl
    simp [step, hp, hl, handleEvent, hk]
  · intro cfg pick st x hk
    exact deliver_chmod cfg pick st x hk
  · intro cfg pick evs tEnd hk
    obtain ⟨n, hn⟩ := foldl_deliver_chmod cfg pick evs start rfl hk
    unfold simulate advanceTo
    rw [hn, advance_no_timers cfg pick _ _ rfl]
    exact ⟨rfl, rfl, rfl, rfl, rfl⟩

/-- Witness for C9: two attribute changes on a fresh target leave no trace. -/
theorem chmod_events_are_discarded_witness :
    (parseEvent { Name := "/w/f", Op := Op.Chmod }).kind = eventKind.chmod ∧
      (simulate loggingTarget true start
        [(0, { Name := "/w/f", Op := Op.Chmod }), (10, { Name := "/w/g", Op := Op.Chmod })]
        500).fired = [] :=
  ⟨by decide,
    (chmod_events_are_discarded.2.2.2.2 loggingTarget true
      [(0, { Name := "/w/f", Op := Op.Chmod }), (10, { Name := "/w/g", Op := Op.Chmod })] 500
      (by decide)).2.1⟩

/-- C11 (what the code does): once `runCh` has been closed, every later fire of a
pending timer panics, whichever case the `select` of `run` takes: the receive on
the closed `exitCh` closes `runCh` a second time, and the send case sends on the
closed channel. So `runCh` is not protected against a second close or a send
after the close. -/
theorem fire_after_close_panics (cfg : Target) (pick : Bool) (path : String)
    (st st1 : State) (hc : st.runCh.closed = true)
    (h : step cfg st (Action.fire path pick) = some st1) : st1.panicked = true := by
  simp only [step] at h
  split_ifs at h with hp
  have hp2 : st.panicked = false := by simpa using hp
  split at h
  · next t hg =>
    split_ifs at h with hd
    simp only [Option.some.injEq] at h
    subst h
    rw [fireTimer_some cfg pick path st t hp2 hg hd]
    exact run_closed_panics cfg.changesStmt pick t.e _ hc
  · simp at h

/-- Witness for C11: two files are created, the target is told to stop, and both
timers fire after the stop. The first fire closes `runCh`; the second fire can be
taken and panics, with either choice of its `select`. -/
theorem fire_after_close_panics_witness :
    execActs plainTarget start pendingAtStopSchedule = some closedOnceState ∧
      closedOnceState.panicked = false ∧ closedOnceState.runCh.closed = true ∧
      (∀ pick, ∃ st1, step plainTarget closedOnceState (Action.fire "/w/b" pick) = some st1 ∧
        st1.panicked = true) := by
  refine ⟨by decide, rfl, rfl, ?_⟩
  intro pick
  have hsome : (step plainTarget closedOnceState (Action.fire "/w/b" pick)).isSome = true := by
    cases pick <;> decide
  obtain ⟨st1, hst1⟩ := Option.isSome_iff_exists.mp hsome
  exact ⟨st1, hst1,
    fire_after_close_panics plainTarget pick "/w/b" closedOnceState st1 rfl hst1⟩

/-- C2 (what the code does): `run` calls `logEvent` before it deletes the entry of
the path from `timers`, so a burst that begins while `logEvent` is in progress gets
two calls of `run`. With a creation at 0 ms, a burst of two writes at 130 and 170 ms
and an `Exec` of 60 ms, `run` is called for the path at 100, 230 and 270 ms: twice
for the burst, the first time less than the quiet interval after its last event and
with the event of the creation. -/
theorem burst_during_logEvent_fires_twice :
    raceEvents = (0, { Name := "/w/f", Op := Op.Create }) ::
        (130, { Name := "/w/f", Op := Op.Write }) ::
        [(170, { Name := "/w/f", Op := Op.Write })] ∧
      burstFrom "/w/f" 130 [(170, { Name := "/w/f", Op := Op.Write })] = true ∧
      firedFor "/w/f"
          (timedSimulate loggingTarget slowExec true timedStart raceEvents 280).st =
        [(100, { path := "/w/f", kind := eventKind.create }),
          (230, { path := "/w/f", kind := eventKind.create }),
          (270, { path := "/w/f", kind := eventKind.write })] ∧
      230 < 170 + cooldownTime := by
  have h1 : timedDeliver loggingTarget slowExec true timedStart
      (0, { Name := "/w/f", Op := Op.Create }) = raceAfterCreate := by decide
  have h2 : timedDeliver loggingTarget slowExec true raceAfterCreate
      (130, { Name := "/w/f", Op := Op.Write }) = raceAfterFirstWrite := by decide
  have h3 : timedDeliver loggingTarget slowExec true raceAfterFirstWrite
      (170, { Name := "/w/f", Op := Op.Write }) = raceAfterSecondWrite := by decide
  have h4 : timedAdvanceTo loggingTarget slowExec true 280 raceAfterSecondWrite = raceEnd := by
    decide
  have h5 : timedSimulate loggingTarget slowExec true timedStart raceEvents 280 = raceEnd := by
    simp only [timedSimulate, raceEvents, List.foldl_cons, List.foldl_nil, h1, h2, h3, h4]
  refine ⟨rfl, by decide, ?_, by decide⟩
  rw [h5]
  decide

/-- C3 (the claim as stated fails): a creation and a write 50 ms later, on a fresh
target, are one burst; the one call of `run` carries the kind of the creation,
while the last event of the burst is a write. -/
theorem fired_kind_is_not_last_kind :
    burstFrom "/w/f" 0 [(50, { Name := "/w/f", Op := Op.Write })] = true ∧
      (timedSimulate loggingTarget slowExec true timedStart createThenWrite 160).st.fired =
        [(150, { path := "/w/f", kind := eventKind.create })] ∧
      (parseEvent { Name := "/w/f", Op := Op.Write }).kind = eventKind.write := by
  have h1 : timedDeliver loggingTarget slowExec true timedStart
      (0, { Name := "/w/f", Op := Op.Create }) = raceAfterCreate := by decide
  have h2 : timedDeliver loggingTarget slowExec true raceAfterCreate
      (50, { Name := "/w/f", Op := Op.Write }) = burstAfterWrite := by decide
  have h3 : timedAdvanceTo loggingTarget slowExec true 160 burstAfterWrite = burstEnd := by
    decide
  have h4 : timedSimulate loggingTarget slowExec true timedStart createThenWrite 160 =
      burstEnd := by
    simp only [timedSimulate, createThenWrite, List.foldl_cons, List.foldl_nil, h1, h2, h3]
  refine ⟨by decide, ?_, by decide⟩
  rw [h4]
  rfl

/-- C3 (as amended): take a target that is operating, whose changes statement
returns no error, and a path of which nothing is left from earlier events (no entry
in `timers`, no armed timer without an entry, no call of `run` still in `logEvent`).
Let the events that follow come in the order of their instants, those on the path
that are not attribute changes forming one burst (each less than the quiet interval
after the one before), with events of other paths among them, and let `logEvent`
take any time. Then up to any instant at least the quiet interval after the last
event of the burst, `run` is called once more for the path: the quiet interval
after the last event of the burst, with the event that started the burst, so with
the kind of the first event. -/
theorem quiet_burst_fires_first_kind (cfg : Target) (lat : Nat → Nat) (pick : Bool)
    (path : String) (s : Timed) (evs : List (Nat × FsEvent)) (first : Nat × FsEvent)
    (more : List (Nat × FsEvent)) (tEnd : Nat)
    (hacc : NeverFails cfg.changesStmt) (hop : Operating s.st) (hq : Quiet path s)
    (hsorted : sortedFrom s.st.now evs = true)
    (hp : evs.filter (isOn path) = first :: more)
    (hb : burstFrom path first.1 more = true)
    (hend : lastTime first.1 more + cooldownTime ≤ tEnd) :
    firedFor path (timedSimulate cfg lat pick s evs tEnd).st =
      firedFor path s.st ++
        [(lastTime first.1 more + cooldownTime,
          { path := path, kind := (parseEvent first.2).kind })] := by
  have hh : Held path none (firedFor path s.st) s := ⟨hop, hq.1, hq.2.1, hq.2.2, rfl⟩
  have hs := timedSimulate_quiet cfg lat pick path _ hacc tEnd first more evs s hh hsorted hp
    hb hend
  have hmem : first ∈ evs.filter (isOn path) := by
    rw [hp]
    exact List.mem_cons_self _ _
  have hon := (List.mem_filter.mp hmem).2
  simp only [isOn, Bool.and_eq_true, decide_eq_true_eq] at hon
  have hpe : parseEvent first.2 = { path := path, kind := (parseEvent first.2).kind } := by
    have := parseEvent_path first.2
    rw [hon.1] at this
    cases hpp : parseEvent first.2 with
    | mk p k =>
      rw [hpp] at this
      simp only at this
      rw [this]
  rw [← hpe]
  exact hs.2.2.2

/-- Witness for C3: a creation of `/w/f`, a creation of another path 20 ms later
and a write of `/w/f` 50 ms after the first, on a fresh target with an `Exec` of
60 ms: `run` is called once for `/w/f`, at 150 ms, with the kind `create`. -/
theorem quiet_burst_fires_first_kind_witness :
    Quiet "/w/f" timedStart ∧
      mixedEvents.filter (isOn "/w/f") =
        [(0, { Name := "/w/f", Op := Op.Create }), (50, { Name := "/w/f", Op := Op.Write })] ∧
      firedFor "/w/f" (timedSimulate loggingTarget slowExec true timedStart mixedEvents 200).st =
        [(150, { path := "/w/f", kind := eventKind.create })] :=
  ⟨Quiet_timedStart "/w/f", by decide,
    quiet_burst_fires_first_kind loggingTarget slowExec true "/w/f" timedStart mixedEvents
      (0, { Name := "/w/f", Op := Op.Create }) [(50, { Name := "/w/f", Op := Op.Write })] 200
      NeverFails_loggingTarget Operating_start (Quiet_timedStart "/w/f") (by decide) (by decide)
      (by decide) (by decide)⟩

/-- C7 (the claim as stated fails): with the include pattern `.*\.go$` and the
exclude pattern `.+_test\.go$` the rule of the claim rejects `file.txt` and
`file_test.go`, yet the creation of `file.txt` starts its debounce timer, and the
three creations record three changes, one for each file: `watch` has no path
filter and a `watcher` carries no pattern sets. -/
theorem watch_has_no_path_filter :
    specAccepts [matchesGo] [matchesTestGo] "/w/file.txt" = false ∧
      specAccepts [matchesGo] [matchesTestGo] "/w/file.go" = true ∧
      specAccepts [matchesGo] [matchesTestGo] "/w/file_test.go" = false ∧
      timersGet (handleEvent { Name := "/w/file.txt", Op := Op.Create } start).timers
          "/w/file.txt" =
        some { e := { path := "/w/file.txt", kind := eventKind.create },
               deadline := some cooldownTime } ∧
      (timedSimulate loggingTarget slowExec true timedStart threeFiles 600).st.changes =
        [("/w/file.txt", "create"), ("/w/file.go", "create"),
          ("/w/file_test.go", "create")] := by
  refine ⟨by decide, by decide, by decide, by decide, ?_⟩
  rw [threeFiles_run]
  rfl

/-- C7 (as amended): a `watcher` has no include or exclude patterns and `watch`
applies no path filter, which is the rule of the claim with both pattern sets
empty: it accepts every path. Whatever its path, an event starts or resets the
debounce timer of its path (armed for the quiet interval from now) if it is not an
attribute change, and changes nothing if it is one; creating `file.txt`, `file.go`
and `file_test.go` records three changes, one for each file. -/
theorem every_path_is_watched (fe : FsEvent) (st : State) :
    specAccepts [] [] fe.Name = true ∧
      ((parseEvent fe).kind ≠ eventKind.chmod →
        ∃ e, timersGet (handleEvent fe st).timers fe.Name =
          some { e := e, deadline := some (st.now + cooldownTime) }) ∧
      ((parseEvent fe).kind = eventKind.chmod → handleEvent fe st = st) ∧
      (timedSimulate loggingTarget slowExec true timedStart threeFiles 600).st.changes =
        [("/w/file.txt", "create"), ("/w/file.go", "create"),
          ("/w/file_test.go", "create")] := by
  refine ⟨rfl, ?_, ?_, ?_⟩
  · intro hk
    have hpath : (parseEvent fe).path = fe.Name := parseEvent_path fe
    unfold handleEvent
    simp only [hk, if_false, hpath]
    cases hg : timersGet st.timers fe.Name with
    | none =>
      simp only []
      exact ⟨_, by rw [timersGet_set_same]; rfl⟩
    | some t =>
      simp only []
      exact ⟨_, by rw [timersGet_set_same]; rfl⟩
  · intro hk
    simp [handleEvent, hk]
  · rw [threeFiles_run]
    rfl

/-- Witness for C7: the creation of `file.txt` on a fresh target arms the timer of
`file.txt` for 100 ms. -/
theorem every_path_is_watched_witness :
    (parseEvent { Name := "/w/file.txt", Op := Op.Create }).kind ≠ eventKind.chmod ∧
      ∃ e, timersGet (handleEvent { Name := "/w/file.txt", Op := Op.Create } start).timers
          "/w/file.txt" = some { e := e, deadline := some 100 } :=
  ⟨by decide,
    (every_path_is_watched { Name := "/w/file.txt", Op := Op.Create } start).2.1 (by decide)⟩

end Waechter
